import Mathlib

/-!
# go-gen: a shallow embedding of `new.go`

The package builds pseudo-random strings from composable generators.  Every
generator implements `Gen(r *rand.Rand, w Writer)`; `New` drives a list of
generators against one random stream and one pooled buffer.

Modelling decisions

* The generator vocabulary of `new.go` is the inductive type `Gen`; a slice
  (`Chain`, `Pick`, `Shuffle`) is the list of its elements, each slice being
  held in one place of the graph.
* `Shuffle.Gen` swaps the elements of its slice in place.  The interpreter
  therefore returns, next to the final state, the generator as the call leaves
  it behind.
* `*rand.Rand` belongs to golang.org/x/exp/rand and is a parameter (`Rand`):
  a state type with the two operations the package uses, `Intn` and `Read`.
* Go's `int` is `Int`, a byte is a `Nat` below 256, a `string` or `[]byte` is
  the list of its bytes, a `rune` is an `Int`.
* A call of the interface method consumes one unit of `fuel` (call depth);
  `Outcome.diverge` is the result of a call that exhausts it.
* `State.draws` and `State.reads` are ghost counters: the number of `Intn`
  calls and of bytes taken with `Read` so far.

Main results

* `Repeat.Gen` with a positive count never returns (`Repeat_diverges`); every
  generator without such a `Repeat` that meets the construction preconditions
  runs to completion (`gen_returns`, `New_returns`).
* `Shuffle.Gen` reorders its list in place, so a call can change what the next
  call does; generators without a list to reorder are left unchanged
  (`gen_fixedOrder`).
* The swap loop of `Shuffle.Gen` relates the in-range answer vectors one-to-one
  to the orderings of a list of distinct elements (`permute_inj`,
  `permute_reaches`).
* The alphabet family writes `max n 0` bytes of its symbol set with one draw
  each (`gen_Family_ok`); the range loop of `Chain.Gen` is the left fold
  `invokeInOrder` (`rangeLoop_eq_invokeInOrder`).
-/

namespace GoGen

/-- The random generator `*rand.Rand` (golang.org/x/exp/rand), taken as a
parameter.  `intn s n` is the answer of `Intn(n)` in state `s` for `n > 0`,
which the library documents to lie in `[0, n)`; `read s` is the byte that a
one-byte `Read` delivers. -/
structure Rand (σ : Type) where
  intn : σ → Nat → Nat × σ
  intn_lt : ∀ s n, 0 < n → (intn s n).1 < n
  read : σ → Nat × σ
  read_lt : ∀ s, (read s).1 < 256

/-- What a call of `Gen(r, w)` can change: the random generator behind `r`,
the bytes held by the writer `w`, and the two ghost counters. -/
structure State (σ : Type) where
  rnd : σ
  buf : List Nat
  draws : Nat
  reads : Nat

/-- Result of running a piece of the program: it returns (`ok`), it panics in
the given state, or it never returns (`diverge`). -/
inductive Outcome (σ α : Type) where
  | ok (val : α) (st : State σ)
  | panic (st : State σ)
  | diverge

/-- Sequencing: the continuation runs only after a normal return. -/
def Outcome.bind {σ α β : Type} (x : Outcome σ α) (f : α → State σ → Outcome σ β) :
    Outcome σ β :=
  match x with
  | .ok a st => f a st
  | .panic st => .panic st
  | .diverge => .diverge

/-- Change the returned value of a normal return. -/
def Outcome.map {σ α β : Type} (f : α → β) (x : Outcome σ α) : Outcome σ β :=
  match x with
  | .ok a st => .ok (f a) st
  | .panic st => .panic st
  | .diverge => .diverge

/-- The generators of `new.go`. -/
inductive Gen where
  | Repeat (G : Gen) (N : Int)
  | RuneTable (v : List Int)
  | ByteTable (v : List Nat)
  | LowerAlphabet (v : Int)
  | UpperAlphabet (v : Int)
  | Alphabet (v : Int)
  | AlphaNumeric (v : Int)
  | Number (v : Int)
  | Chain (v : List Gen)
  | Pick (v : List Gen)
  | Bytes (v : List Nat)
  | String (v : List Nat)
  | Shuffle (v : List Gen)
  | Option (G : Gen)
  | May (G : Gen) (N : Int) (D : Int)

/-- Runes of a Go string literal, as in `[]rune("...")`. -/
def runes (s : String) : List Int :=
  s.toList.map fun c => (c.toNat : Int)

/-! ## The random generator and the writer -/

/-- `r.Intn(n)`: panics when `n <= 0`, otherwise one draw in `[0, n)`. -/
def Intn {σ : Type} (R : Rand σ) (n : Int) (st : State σ) : Outcome σ Nat :=
  if n ≤ 0 then .panic st
  else .ok (R.intn st.rnd n.toNat).1
    { st with rnd := (R.intn st.rnd n.toNat).2, draws := st.draws + 1 }

/-- `getByte`: a one-byte buffer filled by `r.Read`. -/
def getByte {σ : Type} (R : Rand σ) (st : State σ) : Nat × State σ :=
  ((R.read st.rnd).1, { st with rnd := (R.read st.rnd).2, reads := st.reads + 1 })

/-- `parity`: XOR of the eight bits of `c`, compared with 1. -/
def parity (c : Nat) : Bool :=
  let b := ((c >>> 0) &&& 1) ^^^
    ((c >>> 1) &&& 1) ^^^
    ((c >>> 2) &&& 1) ^^^
    ((c >>> 3) &&& 1) ^^^
    ((c >>> 4) &&& 1) ^^^
    ((c >>> 5) &&& 1) ^^^
    ((c >>> 6) &&& 1) ^^^
    ((c >>> 7) &&& 1)
  b == 1

/-- `w.Write(p)` on a `bytes.Buffer`. -/
def Write {σ : Type} (p : List Nat) (st : State σ) : State σ :=
  { st with buf := st.buf ++ p }

/-- `w.WriteByte(b)` on a `bytes.Buffer`. -/
def WriteByte {σ : Type} (b : Nat) (st : State σ) : State σ :=
  { st with buf := st.buf ++ [b] }

/-- `w.WriteString(s)` on a `bytes.Buffer`. -/
def WriteString {σ : Type} (s : List Nat) (st : State σ) : State σ :=
  { st with buf := st.buf ++ s }

/-- UTF-8 encoding of a rune as `utf8.AppendRune` of the Go library produces
it: values outside the Unicode range and surrogates become U+FFFD. -/
def encodeRune (r : Int) : List Nat :=
  let i := (r % 4294967296).toNat
  if i ≤ 0x7F then [i]
  else if i ≤ 0x7FF then [0xC0 ||| (i >>> 6), 0x80 ||| (i &&& 0x3F)]
  else if i > 0x10FFFF ∨ (0xD800 ≤ i ∧ i ≤ 0xDFFF) then [0xEF, 0xBF, 0xBD]
  else if i ≤ 0xFFFF then
    [0xE0 ||| (i >>> 12), 0x80 ||| ((i >>> 6) &&& 0x3F), 0x80 ||| (i &&& 0x3F)]
  else
    [0xF0 ||| (i >>> 18), 0x80 ||| ((i >>> 12) &&& 0x3F),
      0x80 ||| ((i >>> 6) &&& 0x3F), 0x80 ||| (i &&& 0x3F)]

/-- Bytes of a Go string literal: the UTF-8 encoding of its runes. -/
def str (s : String) : List Nat :=
  (runes s).flatMap encodeRune

/-- `w.WriteRune(ru)` on a `bytes.Buffer`. -/
def WriteRune {σ : Type} (ru : Int) (st : State σ) : State σ :=
  { st with buf := st.buf ++ encodeRune ru }

/-- `buf.Reset()`. -/
def Reset {σ : Type} (st : State σ) : State σ :=
  { st with buf := [] }

/-! ## Loops -/

/-- The loop `for i := 0; i < n; i++ { body }` for `n = k`: the body runs `k`
times, each time on what the previous round left behind. -/
def forN {σ α : Type} (body : α → State σ → Outcome σ α) :
    Nat → α → State σ → Outcome σ α
  | 0, a, st => .ok a st
  | k + 1, a, st => (body a st).bind (forN body k)

/-- The loop `for _, x := range v { x.Gen(r, w) }`. -/
def rangeLoop {σ : Type} (call : Gen → State σ → Outcome σ Gen) :
    List Gen → State σ → Outcome σ (List Gen)
  | [], st => .ok [] st
  | x :: xs, st =>
    (call x st).bind fun x' st' => (rangeLoop call xs st').map (x' :: ·)

/-- The assignment `v[i], v[j] = v[j], v[i]`; `none` is an index out of range. -/
def swap {α : Type} (v : List α) (i j : Nat) : Option (List α) :=
  match v[i]?, v[j]? with
  | some a, some b => some ((v.set i b).set j a)
  | _, _ => none

/-- The loop of `Shuffle.Gen`, entered with the current value of `i`:
`for ; i > 0; i-- { j := r.Intn(i + 1); v[i], v[j] = v[j], v[i] }`. -/
def shuffleLoop {σ : Type} (R : Rand σ) :
    Nat → List Gen → State σ → Outcome σ (List Gen)
  | 0, v, st => .ok v st
  | i + 1, v, st =>
    (Intn R (((i + 1 : Nat) : Int) + 1) st).bind fun j st' =>
      match swap v (i + 1) j with
      | some v' => shuffleLoop R i v' st'
      | none => .panic st'

/-! ## The methods -/

/-- `RuneTable.Pick`. -/
def RuneTable.Pick {σ : Type} (R : Rand σ) (v : List Int) (st : State σ) : Outcome σ Int :=
  (Intn R (v.length : Int) st).bind fun i st' =>
    match v[i]? with
    | some ru => .ok ru st'
    | none => .panic st'

/-- `RuneTable.Gen`. -/
def RuneTable.Gen {σ : Type} (R : Rand σ) (v : List Int) (st : State σ) : Outcome σ Unit :=
  (RuneTable.Pick R v st).bind fun ru st' => .ok () (WriteRune ru st')

/-- `ByteTable.Pick`. -/
def ByteTable.Pick {σ : Type} (R : Rand σ) (v : List Nat) (st : State σ) : Outcome σ Nat :=
  (Intn R (v.length : Int) st).bind fun i st' =>
    match v[i]? with
    | some b => .ok b st'
    | none => .panic st'

/-- `ByteTable.Gen`. -/
def ByteTable.Gen {σ : Type} (R : Rand σ) (v : List Nat) (st : State σ) : Outcome σ Unit :=
  (ByteTable.Pick R v st).bind fun b st' => .ok () (WriteByte b st')

/-- `LowerAlphabet.Gen`. -/
def LowerAlphabet.Gen {σ : Type} (R : Rand σ) (v : Int) (st : State σ) : Outcome σ Unit :=
  forN (fun _ s => ByteTable.Gen R (str "abcdefghijklmnopqrstuvwxyz") s) v.toNat () st

/-- `UpperAlphabet.Gen`. -/
def UpperAlphabet.Gen {σ : Type} (R : Rand σ) (v : Int) (st : State σ) : Outcome σ Unit :=
  forN (fun _ s => ByteTable.Gen R (str "ABCDEFGHIJKLMNOPQRSTUVWXYZ") s) v.toNat () st

/-- `Alphabet.Gen`. -/
def Alphabet.Gen {σ : Type} (R : Rand σ) (v : Int) (st : State σ) : Outcome σ Unit :=
  forN (fun _ s =>
    ByteTable.Gen R (str "abcdefghijklmnopqrstuvwxyzABCDEFGHIJKLMNOPQRSTUVWXYZ") s) v.toNat () st

/-- `AlphaNumeric.Gen`. -/
def AlphaNumeric.Gen {σ : Type} (R : Rand σ) (v : Int) (st : State σ) : Outcome σ Unit :=
  forN (fun _ s =>
    ByteTable.Gen R (str "abcdefghijklmnopqrstuvwxyzABCDEFGHIJKLMNOPQRSTUVWXYZ0123456789") s)
    v.toNat () st

/-- `Number.Gen`. -/
def Number.Gen {σ : Type} (R : Rand σ) (v : Int) (st : State σ) : Outcome σ Unit :=
  forN (fun _ s => ByteTable.Gen R (str "0123456789") s) v.toNat () st

/-- `Bytes.Gen`. -/
def Bytes.Gen {σ : Type} (v : List Nat) (st : State σ) : Outcome σ Unit :=
  .ok () (Write v st)

/-- `String.Gen`. -/
def String.Gen {σ : Type} (v : List Nat) (st : State σ) : Outcome σ Unit :=
  .ok () (WriteString v st)

/-- `Repeat.Gen`.  The body of the loop is `v.Gen(r, w)`: the method of the
receiver `v`, a `Repeat`, not the method of its field `v.G`. -/
def Repeat.Gen {σ : Type} (call : GoGen.Gen → State σ → Outcome σ GoGen.Gen)
    (G : GoGen.Gen) (N : Int) (st : State σ) : Outcome σ GoGen.Gen :=
  forN (fun v s => call v s) N.toNat (GoGen.Gen.Repeat G N) st

/-- `Chain.Gen`. -/
def Chain.Gen {σ : Type} (call : GoGen.Gen → State σ → Outcome σ GoGen.Gen)
    (v : List GoGen.Gen) (st : State σ) : Outcome σ (List GoGen.Gen) :=
  rangeLoop call v st

/-- `Pick.Gen`. -/
def Pick.Gen {σ : Type} (R : Rand σ) (call : GoGen.Gen → State σ → Outcome σ GoGen.Gen)
    (v : List GoGen.Gen) (st : State σ) : Outcome σ (List GoGen.Gen) :=
  (Intn R (v.length : Int) st).bind fun i st' =>
    match v[i]? with
    | some x => (call x st').map fun x' => v.set i x'
    | none => .panic st'

/-- `Shuffle.Gen`. -/
def Shuffle.Gen {σ : Type} (R : Rand σ) (call : GoGen.Gen → State σ → Outcome σ GoGen.Gen)
    (v : List GoGen.Gen) (st : State σ) : Outcome σ (List GoGen.Gen) :=
  (shuffleLoop R (v.length - 1) v st).bind fun v' st' => Chain.Gen call v' st'

/-- `Option.Gen`. -/
def Option.Gen {σ : Type} (R : Rand σ) (call : GoGen.Gen → State σ → Outcome σ GoGen.Gen)
    (G : GoGen.Gen) (st : State σ) : Outcome σ GoGen.Gen :=
  if parity (getByte R st).1 then call G (getByte R st).2
  else .ok G (getByte R st).2

/-- `May.Gen`. -/
def May.Gen {σ : Type} (R : Rand σ) (call : GoGen.Gen → State σ → Outcome σ GoGen.Gen)
    (G : GoGen.Gen) (N D : Int) (st : State σ) : Outcome σ GoGen.Gen :=
  (Intn R D st).bind fun d st' =>
    if (d : Int) < N then call G st' else .ok G st'

/-- Dynamic dispatch of the interface method `Gen(r, w)`.  The result holds
the generator as the call leaves it behind. -/
def Gen.gen {σ : Type} (R : Rand σ) : Nat → GoGen.Gen → State σ → Outcome σ GoGen.Gen
  | 0, _, _ => .diverge
  | fuel + 1, g, st =>
    match g with
    | .Repeat G N => Repeat.Gen (Gen.gen R fuel) G N st
    | .RuneTable v => (RuneTable.Gen R v st).map fun _ => g
    | .ByteTable v => (ByteTable.Gen R v st).map fun _ => g
    | .LowerAlphabet v => (LowerAlphabet.Gen R v st).map fun _ => g
    | .UpperAlphabet v => (UpperAlphabet.Gen R v st).map fun _ => g
    | .Alphabet v => (Alphabet.Gen R v st).map fun _ => g
    | .AlphaNumeric v => (AlphaNumeric.Gen R v st).map fun _ => g
    | .Number v => (Number.Gen R v st).map fun _ => g
    | .Chain v => (Chain.Gen (Gen.gen R fuel) v st).map GoGen.Gen.Chain
    | .Pick v => (Pick.Gen R (Gen.gen R fuel) v st).map GoGen.Gen.Pick
    | .Bytes v => (Bytes.Gen v st).map fun _ => g
    | .String v => (String.Gen v st).map fun _ => g
    | .Shuffle v => (Shuffle.Gen R (Gen.gen R fuel) v st).map GoGen.Gen.Shuffle
    | .Option G => (Option.Gen R (Gen.gen R fuel) G st).map GoGen.Gen.Option
    | .May G N D => (May.Gen R (Gen.gen R fuel) G N D st).map fun G' => GoGen.Gen.May G' N D

/-- `New(source, list...)`.  `pooled` is what the buffer taken from
`bufferFree` holds on arrival; the result is the returned string together
with the argument list as the call leaves it behind. -/
def New {σ : Type} (R : Rand σ) (fuel : Nat) (pooled : List Nat) (source : σ)
    (list : List Gen) : Outcome σ (List Nat × List Gen) :=
  let buf : State σ := { rnd := source, buf := pooled, draws := 0, reads := 0 }
  (rangeLoop (Gen.gen R fuel) list (Reset buf)).bind fun list' st =>
    .ok (st.buf, list') st

/-! ## Notions used in the statements

None of the following is code of `new.go`: `script` is one concrete random
generator, used where a statement needs chosen answers of `Intn`; the rest are
predicates and measures on generators and the swap loop written as a function
of the answers of its draws. -/

/-- A random generator that replays a script: the state is the list of the
values still to come, `Intn(n)` answers the next value reduced modulo `n`, and
a one-byte `Read` answers the next value reduced modulo 256.  Once the script
is used up every answer is 0. -/
def script : Rand (List Nat) where
  intn s n :=
    match s with
    | [] => (0, [])
    | d :: ds => (d % n, ds)
  intn_lt := by
    intro s n hn
    cases s with
    | nil => simpa using hn
    | cons d ds => exact Nat.mod_lt _ hn
  read s :=
    match s with
    | [] => (0, [])
    | d :: ds => (d % 256, ds)
  read_lt := by
    intro s
    cases s with
    | nil => simp
    | cons d ds => exact Nat.mod_lt _ (by decide)

/-- Number of set bits among the eight bits of a byte. -/
def popcount (c : Nat) : Nat :=
  ((List.range 8).filter fun k => c.testBit k).length

/-- The three literals of the `Pick` and `Shuffle` examples in `new_test.go`. -/
def exampleLiterals : List Gen :=
  [.String (str "111"), .String (str "222"), .String (str "333")]

mutual
/-- No `Shuffle` list with two or more elements occurs in the generator: a
call of `Gen` has nothing to reorder. -/
def Gen.fixedOrder : Gen → Bool
  | .Repeat G _ => G.fixedOrder
  | .Chain v => fixedOrderList v
  | .Pick v => fixedOrderList v
  | .Shuffle v => decide (v.length ≤ 1) && fixedOrderList v
  | .Option G => G.fixedOrder
  | .May G _ _ => G.fixedOrder
  | _ => true
/-- `Gen.fixedOrder` for every element of a list. -/
def fixedOrderList : List Gen → Bool
  | [] => true
  | g :: gs => g.fixedOrder && fixedOrderList gs
end

/-- The shuffle loop as a function of the answers of its draws: `js` lists the
answers in the order the loop takes them, for `i`, `i - 1`, ..., 1. -/
def permute {α : Type} : Nat → List Nat → List α → Option (List α)
  | 0, _, v => some v
  | _ + 1, [], _ => none
  | i + 1, j :: js, v => (swap v (i + 1) j).bind (permute i js)

/-- The answers `js` are possible for a loop entered at `i`: one answer for
each of `i`, `i - 1`, ..., 1, the answer for index `k` being at most `k`. -/
def inRange : Nat → List Nat → Bool
  | 0, [] => true
  | i + 1, j :: js => decide (j ≤ i + 1) && inRange i js
  | _, _ => false

/-- All answer vectors that are possible for a loop entered at `i`. -/
def drawVectors : Nat → List (List Nat)
  | 0 => [[]]
  | i + 1 => (List.range (i + 2)).flatMap fun j => (drawVectors i).map (j :: ·)

mutual
/-- The construction preconditions of the spec (non-empty tables and `Pick`
lists, `May` with `D > 0`), together with: no `Repeat` has a positive count. -/
def Gen.callable : Gen → Bool
  | .Repeat G N => decide (N ≤ 0) && G.callable
  | .RuneTable v => !v.isEmpty
  | .ByteTable v => !v.isEmpty
  | .Chain v => callableList v
  | .Pick v => !v.isEmpty && callableList v
  | .Shuffle v => callableList v
  | .Option G => G.callable
  | .May G _ D => decide (0 < D) && G.callable
  | _ => true
/-- `Gen.callable` for every element of a list. -/
def callableList : List Gen → Bool
  | [] => true
  | g :: gs => g.callable && callableList gs
end

mutual
/-- Nesting depth of a generator: the call depth that `Gen` needs. -/
def Gen.depth : Gen → Nat
  | .Repeat G _ => G.depth + 1
  | .Chain v => depthList v + 1
  | .Pick v => depthList v + 1
  | .Shuffle v => depthList v + 1
  | .Option G => G.depth + 1
  | .May G _ _ => G.depth + 1
  | _ => 1
/-- Largest nesting depth in a list. -/
def depthList : List Gen → Nat
  | [] => 0
  | g :: gs => max g.depth (depthList gs)
end

/-- The five generators of the alphabet family. -/
inductive Family where
  | lower
  | upper
  | mixed
  | alnum
  | digits

/-- The generator of a family member for the count `n`: `LowerAlphabet(n)`,
`UpperAlphabet(n)`, `Alphabet(n)`, `AlphaNumeric(n)`, `Number(n)`. -/
def Family.gen : Family → Int → Gen
  | .lower, n => .LowerAlphabet n
  | .upper, n => .UpperAlphabet n
  | .mixed, n => .Alphabet n
  | .alnum, n => .AlphaNumeric n
  | .digits, n => .Number n

/-- The constant `some` in the `Gen` method of a family member. -/
def Family.table : Family → List Nat
  | .lower => str "abcdefghijklmnopqrstuvwxyz"
  | .upper => str "ABCDEFGHIJKLMNOPQRSTUVWXYZ"
  | .mixed => str "abcdefghijklmnopqrstuvwxyzABCDEFGHIJKLMNOPQRSTUVWXYZ"
  | .alnum => str "abcdefghijklmnopqrstuvwxyzABCDEFGHIJKLMNOPQRSTUVWXYZ0123456789"
  | .digits => str "0123456789"

/-- The byte is one of `'a'..'z'`. -/
def isLower (b : Nat) : Bool :=
  decide (97 ≤ b) && decide (b ≤ 122)

/-- The byte is one of `'A'..'Z'`. -/
def isUpper (b : Nat) : Bool :=
  decide (65 ≤ b) && decide (b ≤ 90)

/-- The byte is one of `'0'..'9'`. -/
def isDigit (b : Nat) : Bool :=
  decide (48 ≤ b) && decide (b ≤ 57)

/-- The declared symbol set of a family member, as a test on bytes. -/
def Family.symbols : Family → Nat → Bool
  | .lower, b => isLower b
  | .upper, b => isUpper b
  | .mixed, b => isLower b || isUpper b
  | .alnum, b => isLower b || isUpper b || isDigit b
  | .digits, b => isDigit b

/-- "Invoke each element once, in listed order", written from the words of the
spec rather than from the loop: the list is folded from the left, each step
invoking the next element on the state that the steps before it left, and
noting what the call leaves behind. -/
def invokeInOrder {σ : Type} (call : Gen → State σ → Outcome σ Gen) (v : List Gen)
    (st : State σ) : Outcome σ (List Gen) :=
  v.foldl (fun acc x => acc.bind fun done st' => (call x st').map fun x' => done ++ [x'])
    (.ok [] st)

/-- Whether `May{G, N, D}.Gen` invokes its child when `Intn(D)` answers `d`:
observed on the replaying source with a child that writes one byte. -/
def mayIncludes (N D : Int) (d : Nat) : Bool :=
  match Gen.gen script 2 (.May (.Bytes [0]) N D)
    { rnd := [d], buf := [], draws := 0, reads := 0 } with
  | .ok _ st => st.buf == [0]
  | _ => false

/-! ## Basic facts -/

section Basic

variable {σ : Type}

theorem bind_ok {α β : Type} (a : α) (st : State σ) (f : α → State σ → Outcome σ β) :
    (Outcome.ok a st).bind f = f a st := rfl

theorem bind_diverge {α β : Type} (f : α → State σ → Outcome σ β) :
    (Outcome.diverge : Outcome σ α).bind f = .diverge := rfl

theorem bind_panic {α β : Type} (st : State σ) (f : α → State σ → Outcome σ β) :
    (Outcome.panic st : Outcome σ α).bind f = .panic st := rfl

theorem map_ok {α β : Type} (a : α) (st : State σ) (f : α → β) :
    (Outcome.ok a st).map f = .ok (f a) st := rfl

theorem map_diverge {α β : Type} (f : α → β) :
    (Outcome.diverge : Outcome σ α).map f = .diverge := rfl

theorem map_panic {α β : Type} (st : State σ) (f : α → β) :
    (Outcome.panic st : Outcome σ α).map f = .panic st := rfl

theorem gen_zero (R : Rand σ) (g : Gen) (st : State σ) : Gen.gen R 0 g st = .diverge := rfl

theorem gen_Repeat (R : Rand σ) (fuel : Nat) (G : Gen) (N : Int) (st : State σ) :
    Gen.gen R (fuel + 1) (.Repeat G N) st = Repeat.Gen (Gen.gen R fuel) G N st := rfl

theorem gen_ByteTable (R : Rand σ) (fuel : Nat) (t : List Nat) (st : State σ) :
    Gen.gen R (fuel + 1) (.ByteTable t) st =
      (ByteTable.Gen R t st).map fun _ => Gen.ByteTable t := rfl

theorem gen_Number (R : Rand σ) (fuel : Nat) (n : Int) (st : State σ) :
    Gen.gen R (fuel + 1) (.Number n) st = (Number.Gen R n st).map fun _ => Gen.Number n := rfl

theorem gen_Chain (R : Rand σ) (fuel : Nat) (v : List Gen) (st : State σ) :
    Gen.gen R (fuel + 1) (.Chain v) st = (Chain.Gen (Gen.gen R fuel) v st).map Gen.Chain := rfl

theorem gen_Pick (R : Rand σ) (fuel : Nat) (v : List Gen) (st : State σ) :
    Gen.gen R (fuel + 1) (.Pick v) st = (Pick.Gen R (Gen.gen R fuel) v st).map Gen.Pick := rfl

theorem gen_Bytes (R : Rand σ) (fuel : Nat) (p : List Nat) (st : State σ) :
    Gen.gen R (fuel + 1) (.Bytes p) st = .ok (.Bytes p) (Write p st) := rfl

theorem gen_String (R : Rand σ) (fuel : Nat) (p : List Nat) (st : State σ) :
    Gen.gen R (fuel + 1) (.String p) st = .ok (.String p) (WriteString p st) := rfl

theorem gen_Shuffle (R : Rand σ) (fuel : Nat) (v : List Gen) (st : State σ) :
    Gen.gen R (fuel + 1) (.Shuffle v) st =
      (Shuffle.Gen R (Gen.gen R fuel) v st).map Gen.Shuffle := rfl

theorem gen_Option (R : Rand σ) (fuel : Nat) (G : Gen) (st : State σ) :
    Gen.gen R (fuel + 1) (.Option G) st =
      (Option.Gen R (Gen.gen R fuel) G st).map Gen.Option := rfl

theorem gen_May (R : Rand σ) (fuel : Nat) (G : Gen) (N D : Int) (st : State σ) :
    Gen.gen R (fuel + 1) (.May G N D) st =
      (May.Gen R (Gen.gen R fuel) G N D st).map fun G' => Gen.May G' N D := rfl

/-- With a positive bound `Intn` returns, answers below the bound, advances
the draw counter by one and leaves buffer and read counter alone. -/
theorem Intn_pos (R : Rand σ) (n : Nat) (hn : 0 < n) (st : State σ) :
    ∃ i st', Intn R (n : Int) st = .ok i st' ∧ i < n ∧ st'.buf = st.buf ∧
      st'.draws = st.draws + 1 ∧ st'.reads = st.reads := by
  refine ⟨(R.intn st.rnd n).1,
    { st with rnd := (R.intn st.rnd n).2, draws := st.draws + 1 }, ?_, ?_, rfl, rfl, rfl⟩
  · have h : ¬ ((n : Int) ≤ 0) := by omega
    simp [Intn, h]
  · exact R.intn_lt _ _ hn

/-- A call of `Repeat.Gen` with a positive count never returns, whatever call
depth is granted: its loop body calls `Repeat.Gen` itself. -/
theorem Repeat_diverges (R : Rand σ) (G : Gen) (k : Nat) (fuel : Nat) (st : State σ) :
    Gen.gen R fuel (.Repeat G ((k : Int) + 1)) st = .diverge := by
  induction fuel with
  | zero => rfl
  | succ fuel ih =>
    have hk : ((k : Int) + 1).toNat = k + 1 := by omega
    simp only [gen_Repeat, Repeat.Gen, hk, forN, ih, bind_diverge]

/-- One `ByteTable.Gen` on a non-empty table: one draw, one byte of the table
appended. -/
theorem ByteTable_Gen_ok (R : Rand σ) (t : List Nat) (ht : t ≠ []) (st : State σ) :
    ∃ b st', ByteTable.Gen R t st = .ok () st' ∧ b ∈ t ∧ st'.buf = st.buf ++ [b] ∧
      st'.draws = st.draws + 1 ∧ st'.reads = st.reads := by
  obtain ⟨i, st1, h1, hi, hb, hd, hr⟩ := Intn_pos R t.length (List.length_pos.2 ht) st
  refine ⟨t[i], WriteByte t[i] st1, ?_, List.getElem_mem _, ?_, hd, hr⟩
  · simp [ByteTable.Gen, ByteTable.Pick, h1, bind_ok, List.getElem?_eq_getElem hi]
  · simp [WriteByte, hb]

/-- The loop shared by the alphabet family: `k` rounds of `ByteTable.Gen` on a
non-empty table append `k` bytes of the table and take `k` draws. -/
theorem tableLoop_ok (R : Rand σ) (t : List Nat) (ht : t ≠ []) (k : Nat) (st : State σ) :
    ∃ bs st', forN (fun _ s => ByteTable.Gen R t s) k () st = .ok () st' ∧
      st'.buf = st.buf ++ bs ∧ bs.length = k ∧ (∀ b ∈ bs, b ∈ t) ∧
      st'.draws = st.draws + k ∧ st'.reads = st.reads := by
  induction k generalizing st with
  | zero => exact ⟨[], st, rfl, by simp, rfl, by simp, rfl, rfl⟩
  | succ k ih =>
    obtain ⟨b, st1, h1, hbt, hb, hd, hr⟩ := ByteTable_Gen_ok R t ht st
    obtain ⟨bs, st2, h2, hb2, hl, hm, hd2, hr2⟩ := ih st1
    refine ⟨b :: bs, st2, ?_, ?_, by simp [hl], ?_, ?_, ?_⟩
    · simp only [forN, h1, bind_ok, h2]
    · simp [hb2, hb]
    · intro x hx
      rcases List.mem_cons.1 hx with rfl | hx
      · exact hbt
      · exact hm x hx
    · omega
    · omega

/-- Calling the interface method of a `ByteTable` in a loop is the loop over
`ByteTable.Gen`. -/
theorem forN_gen_ByteTable (R : Rand σ) (t : List Nat) (fuel k : Nat) (st : State σ) :
    forN (fun g s => Gen.gen R (fuel + 1) g s) k (Gen.ByteTable t) st =
      (forN (fun _ s => ByteTable.Gen R t s) k () st).map fun _ => Gen.ByteTable t := by
  induction k generalizing st with
  | zero => rfl
  | succ k ih =>
    simp only [forN, gen_ByteTable]
    cases h : ByteTable.Gen R t st with
    | ok u st1 => simp only [map_ok, bind_ok, ih]
    | panic st1 => rfl
    | diverge => rfl

/-- `Number(n)` returns at every positive call depth. -/
theorem gen_Number_ok (R : Rand σ) (n : Int) (fuel : Nat) (st : State σ) :
    ∃ bs st', Gen.gen R (fuel + 1) (.Number n) st = .ok (.Number n) st' ∧
      st'.buf = st.buf ++ bs ∧ bs.length = n.toNat ∧ (∀ b ∈ bs, b ∈ str "0123456789") ∧
      st'.draws = st.draws + n.toNat ∧ st'.reads = st.reads := by
  obtain ⟨bs, st1, h, hb, hl, hm, hd, hr⟩ :=
    tableLoop_ok R (str "0123456789") (by decide) n.toNat st
  exact ⟨bs, st1, by simp only [gen_Number, Number.Gen, h, map_ok], hb, hl, hm, hd, hr⟩

end Basic

/-! ## Repeat -/

/-- C1 (code bug).  `Repeat.Gen` does not have the effect of invoking `G.Gen`
`N` times: for every child `G`, every count `N = k + 1 > 0`, every random
source and every call depth it never returns, because the loop body calls
`v.Gen`, the method of the `Repeat` itself.  At the input of the test,
`Repeat{ByteTable("hello world"), 10}`, ten calls of the child in sequence do
return and append ten bytes of the table, whereas the `Repeat` diverges. -/
theorem C1_Repeat_never_returns {σ : Type} (R : Rand σ) (st : State σ) :
    (∀ (G : Gen) (k fuel : Nat), Gen.gen R fuel (.Repeat G ((k : Int) + 1)) st = .diverge) ∧
    (∃ bs st', forN (fun g s => Gen.gen R 1 g s) 10 (Gen.ByteTable (str "hello world")) st =
        .ok (Gen.ByteTable (str "hello world")) st' ∧
      st'.buf = st.buf ++ bs ∧ bs.length = 10 ∧ ∀ b ∈ bs, b ∈ str "hello world") ∧
    ∀ fuel, Gen.gen R fuel (.Repeat (.ByteTable (str "hello world")) 10) st = .diverge := by
  refine ⟨fun G k fuel => Repeat_diverges R G k fuel st, ?_, fun fuel => ?_⟩
  · obtain ⟨bs, st1, h, hb, hl, hm, -, -⟩ :=
      tableLoop_ok R (str "hello world") (by decide) 10 st
    exact ⟨bs, st1, by rw [forN_gen_ByteTable, h, map_ok], hb, hl, hm⟩
  · exact Repeat_diverges R _ 9 fuel st

/-! ## New -/

section Entry

variable {σ : Type}

/-- A list of literal generators appends the payloads in order, draws nothing
and is left unchanged. -/
theorem rangeLoop_literals (R : Rand σ) (fuel : Nat) (ps : List (Bool × List Nat))
    (st : State σ) :
    rangeLoop (Gen.gen R (fuel + 1))
        (ps.map fun p => bif p.1 then Gen.String p.2 else Gen.Bytes p.2) st =
      .ok (ps.map fun p => bif p.1 then Gen.String p.2 else Gen.Bytes p.2)
        { st with buf := st.buf ++ (ps.map Prod.snd).flatten } := by
  induction ps generalizing st with
  | nil => simp [rangeLoop]
  | cons p ps ih =>
    rcases p with ⟨b, p⟩
    cases b <;>
      simp [rangeLoop, gen_Bytes, gen_String, bind_ok, ih, map_ok, Write, WriteString]

theorem rangeLoop_nil (call : Gen → State σ → Outcome σ Gen) (st : State σ) :
    rangeLoop call [] st = .ok [] st := rfl

theorem rangeLoop_cons (call : Gen → State σ → Outcome σ Gen) (x : Gen) (xs : List Gen)
    (st : State σ) :
    rangeLoop call (x :: xs) st =
      (call x st).bind fun x' st' => (rangeLoop call xs st').map (x' :: ·) := rfl

/-- The range loop over `xs ++ ys` is the loop over `xs` followed by the loop
over `ys` from the state the first one leaves. -/
theorem rangeLoop_append (call : Gen → State σ → Outcome σ Gen) (xs ys : List Gen)
    (st : State σ) :
    rangeLoop call (xs ++ ys) st =
      (rangeLoop call xs st).bind fun xs' st' => (rangeLoop call ys st').map (xs' ++ ·) := by
  induction xs generalizing st with
  | nil =>
    rw [List.nil_append, rangeLoop_nil, bind_ok]
    cases rangeLoop call ys st <;> simp [Outcome.map]
  | cons x xs ih =>
    rw [List.cons_append, rangeLoop_cons, rangeLoop_cons]
    cases call x st with
    | ok x' st1 =>
      rw [bind_ok, bind_ok, ih st1]
      cases rangeLoop call xs st1 with
      | ok xs' st2 =>
        rw [bind_ok, map_ok, bind_ok]
        cases rangeLoop call ys st2 <;> simp [Outcome.map]
      | panic st2 => rfl
      | diverge => rfl
    | panic st1 => rfl
    | diverge => rfl

end Entry

/-- C4.  `New` returns what the generators write, in order, into an empty
buffer on one random stream: its outcome is that of the range loop started
with an empty buffer, whatever the pooled buffer held; for a list `xs ++ ys`
the generators of `ys` start from the random state and the bytes that those of
`xs` leave; for literal arguments the result is the concatenation of the
payloads, with no draw taken; and `New(source, String("hello"),
Bytes("world"))` is `"helloworld"`. -/
theorem C4_New_collects_in_order {σ : Type} (R : Rand σ) (fuel : Nat) (pooled : List Nat)
    (source : σ) :
    (∀ list : List Gen, New R fuel pooled source list =
      (rangeLoop (Gen.gen R fuel) list { rnd := source, buf := [], draws := 0, reads := 0 }).bind
        fun list' st => .ok (st.buf, list') st) ∧
    (∀ xs ys : List Gen, New R fuel pooled source (xs ++ ys) =
      (rangeLoop (Gen.gen R fuel) xs { rnd := source, buf := [], draws := 0, reads := 0 }).bind
        fun xs' st => (rangeLoop (Gen.gen R fuel) ys st).bind
          fun ys' st' => .ok (st'.buf, xs' ++ ys') st') ∧
    (∀ ps : List (Bool × List Nat),
      New R (fuel + 1) pooled source
          (ps.map fun p => bif p.1 then Gen.String p.2 else Gen.Bytes p.2) =
        .ok ((ps.map Prod.snd).flatten,
            ps.map fun p => bif p.1 then Gen.String p.2 else Gen.Bytes p.2)
          { rnd := source, buf := (ps.map Prod.snd).flatten, draws := 0, reads := 0 }) ∧
    New R (fuel + 1) pooled source [.String (str "hello"), .Bytes (str "world")] =
      .ok (str "helloworld", [.String (str "hello"), .Bytes (str "world")])
        { rnd := source, buf := str "helloworld", draws := 0, reads := 0 } := by
  refine ⟨fun list => rfl, fun xs ys => ?_, fun ps => ?_, ?_⟩
  · simp only [New, Reset, rangeLoop_append]
    cases rangeLoop (Gen.gen R fuel) xs { rnd := source, buf := [], draws := 0, reads := 0 } with
    | ok xs' st1 =>
      simp only [bind_ok]
      cases rangeLoop (Gen.gen R fuel) ys st1 <;> simp [Outcome.map, Outcome.bind]
    | panic st1 => rfl
    | diverge => rfl
  · simp [New, Reset, rangeLoop_literals, bind_ok]
  · rfl

/-! ## Pick -/

/-- C5.  `Pick.Gen` on a non-empty list takes one draw `i` below the length
of the list, invokes the element at index `i` once, from the state right after
the draw, and nothing else: its outcome is the outcome of that one call, with
the element at `i` replaced by what the call leaves behind.  When the elements
are `String` literals the call returns and appends exactly one of the
literals. -/
theorem C5_Pick_invokes_one {σ : Type} (R : Rand σ) (fuel : Nat) (v : List Gen) (hv : v ≠ [])
    (st : State σ) :
    (∃ i st1 x, Intn R (v.length : Int) st = .ok i st1 ∧ i < v.length ∧ v[i]? = some x ∧
      st1.buf = st.buf ∧ st1.draws = st.draws + 1 ∧ st1.reads = st.reads ∧
      Gen.gen R (fuel + 1) (.Pick v) st =
        (Gen.gen R fuel x st1).map fun x' => Gen.Pick (v.set i x')) ∧
    ∀ ps : List (List Nat), v = ps.map Gen.String →
      ∃ p st', p ∈ ps ∧ Gen.gen R (fuel + 2) (.Pick v) st = .ok (.Pick v) st' ∧
        st'.buf = st.buf ++ p ∧ st'.draws = st.draws + 1 ∧ st'.reads = st.reads := by
  obtain ⟨i, st1, h1, hi, hb, hd, hr⟩ := Intn_pos R v.length (List.length_pos.2 hv) st
  have hx : v[i]? = some v[i] := List.getElem?_eq_getElem hi
  have hg : ∀ f, Gen.gen R (f + 1) (.Pick v) st =
      (Gen.gen R f v[i] st1).map fun x' => Gen.Pick (v.set i x') := by
    intro f
    rw [gen_Pick, Pick.Gen, h1, bind_ok, hx]
    dsimp only
    cases Gen.gen R f v[i] st1 <;> rfl
  refine ⟨⟨i, st1, v[i], h1, hi, hx, hb, hd, hr, hg fuel⟩, ?_⟩
  intro ps hps
  subst hps
  have hi' : i < ps.length := by simpa using hi
  refine ⟨ps[i], WriteString ps[i] st1, List.getElem_mem _, ?_, ?_, hd, hr⟩
  · rw [hg (fuel + 1)]
    simp only [List.getElem_map, gen_String, map_ok]
    congr 2
    apply List.ext_getElem (by simp)
    intro n h1 h2
    by_cases hn : i = n
    · subst hn; simp
    · simp [List.getElem_set_ne hn]
  · simp [WriteString, hb]

/-- C5 at the list of the test, `Pick{String("111"), String("222"),
String("333")}`, with a source whose next answer is 4. -/
theorem C5_Pick_invokes_one_witness :
    (exampleLiterals ≠ []) ∧
    ((∃ i st1 x, Intn script (exampleLiterals.length : Int)
          { rnd := [4], buf := [], draws := 0, reads := 0 } = .ok i st1 ∧
        i < exampleLiterals.length ∧ exampleLiterals[i]? = some x ∧
        st1.buf = [] ∧ st1.draws = 0 + 1 ∧ st1.reads = 0 ∧
        Gen.gen script (1 + 1) (.Pick exampleLiterals)
            { rnd := [4], buf := [], draws := 0, reads := 0 } =
          (Gen.gen script 1 x st1).map fun x' => Gen.Pick (exampleLiterals.set i x')) ∧
      ∀ ps : List (List Nat), exampleLiterals = ps.map Gen.String →
        ∃ p st', p ∈ ps ∧
          Gen.gen script (1 + 2) (.Pick exampleLiterals)
              { rnd := [4], buf := [], draws := 0, reads := 0 } =
            .ok (.Pick exampleLiterals) st' ∧
          st'.buf = [] ++ p ∧ st'.draws = 0 + 1 ∧ st'.reads = 0) :=
  ⟨by simp [exampleLiterals], C5_Pick_invokes_one script 1 _ (by simp [exampleLiterals]) _⟩

/-! ## Option -/

set_option maxRecDepth 100000 in
/-- For a byte, `parity` is true exactly when the number of set bits is odd. -/
theorem parity_eq_odd_popcount :
    ∀ c : Fin 256, parity c.val = decide (popcount c.val % 2 = 1) := by
  decide

/-- C9.  `Option.Gen` takes exactly one byte from the source (the read
counter advances by one, no `Intn` draw, nothing written), then invokes the
child once, from the state after the read, when `parity` of that byte is true,
and returns without invoking it otherwise; `parity c` is true exactly when the
byte `c` has an odd number of set bits. -/
theorem C9_Option_parity {σ : Type} (R : Rand σ) (fuel : Nat) (G : Gen) (st : State σ) :
    (getByte R st).1 < 256 ∧ (getByte R st).2.reads = st.reads + 1 ∧
    (getByte R st).2.draws = st.draws ∧ (getByte R st).2.buf = st.buf ∧
    Gen.gen R (fuel + 1) (.Option G) st =
      (if parity (getByte R st).1 then (Gen.gen R fuel G (getByte R st).2).map Gen.Option
        else .ok (.Option G) (getByte R st).2) ∧
    parity (getByte R st).1 = decide (popcount (getByte R st).1 % 2 = 1) ∧
    ∀ c : Fin 256, parity c.val = decide (popcount c.val % 2 = 1) := by
  have hlt : (getByte R st).1 < 256 := R.read_lt st.rnd
  refine ⟨hlt, rfl, rfl, rfl, ?_, parity_eq_odd_popcount ⟨_, hlt⟩, parity_eq_odd_popcount⟩
  rw [gen_Option, Option.Gen]
  split <;> rfl

set_option maxRecDepth 100000 in
/-- C10.  Of the 256 byte values exactly 128 have `parity` true and 128 have
it false: a uniformly distributed byte makes `Option` include its child with
probability 128/256 = 1/2. -/
theorem C10_parity_half :
    ((List.range 256).filter fun c => parity c).length = 128 ∧
    ((List.range 256).filter fun c => !parity c).length = 128 ∧
    (List.range 256).length = 2 * 128 := by
  decide

/-! ## Successive calls -/

section Stable

variable {σ : Type}

theorem bind_eq_ok {α β : Type} {x : Outcome σ α} {f : α → State σ → Outcome σ β} {b : β}
    {st' : State σ} (h : x.bind f = .ok b st') :
    ∃ a st1, x = .ok a st1 ∧ f a st1 = .ok b st' := by
  cases x with
  | ok a st1 => exact ⟨a, st1, rfl, h⟩
  | panic st1 => cases h
  | diverge => cases h

theorem map_eq_ok {α β : Type} {x : Outcome σ α} {f : α → β} {b : β} {st' : State σ}
    (h : x.map f = .ok b st') : ∃ a, x = .ok a st' ∧ f a = b := by
  cases x with
  | ok a st1 =>
    simp only [map_ok, Outcome.ok.injEq] at h
    exact ⟨a, by rw [h.2], h.1⟩
  | panic st1 => cases h
  | diverge => cases h

theorem set_getElem_same {α : Type} (v : List α) (i : Nat) (hi : i < v.length) :
    v.set i v[i] = v := by
  apply List.ext_getElem (by simp)
  intro n h1 h2
  by_cases hn : i = n
  · subst hn; simp
  · simp [List.getElem_set_ne hn]

theorem fixedOrderList_iff (v : List Gen) :
    fixedOrderList v = true ↔ ∀ x ∈ v, x.fixedOrder = true := by
  induction v with
  | nil => simp [fixedOrderList]
  | cons x xs ih => simp [fixedOrderList, ih]

/-- A loop whose body hands back the value it was given hands back its start
value. -/
theorem forN_fixed {α : Type} (body : α → State σ → Outcome σ α) (a : α)
    (hbody : ∀ st a' st', body a st = .ok a' st' → a' = a) (k : Nat) (st : State σ)
    (a' : α) (st' : State σ) (h : forN body k a st = .ok a' st') : a' = a := by
  induction k generalizing st with
  | zero =>
    simp only [forN, Outcome.ok.injEq] at h
    exact h.1.symm
  | succ k ih =>
    obtain ⟨a1, st1, h1, h2⟩ := bind_eq_ok h
    have := hbody st a1 st1 h1
    subst this
    exact ih st1 h2

/-- A range loop whose calls leave every element as it was leaves the list as
it was. -/
theorem rangeLoop_fixed (call : Gen → State σ → Outcome σ Gen) (v : List Gen)
    (hcall : ∀ x ∈ v, ∀ st x' st', call x st = .ok x' st' → x' = x) (st : State σ)
    (v' : List Gen) (st' : State σ) (h : rangeLoop call v st = .ok v' st') : v' = v := by
  induction v generalizing st v' with
  | nil =>
    simp only [rangeLoop, Outcome.ok.injEq] at h
    exact h.1.symm
  | cons x xs ih =>
    rw [rangeLoop_cons] at h
    obtain ⟨x1, st1, h1, h2⟩ := bind_eq_ok h
    obtain ⟨xs1, h3, h4⟩ := map_eq_ok h2
    have e1 := hcall x (List.mem_cons_self _ _) st x1 st1 h1
    have e2 := ih (fun y hy => hcall y (List.mem_cons_of_mem _ hy)) st1 xs1 h3
    rw [← h4, e1, e2]

/-- A generator without a `Shuffle` list of two or more elements is left
unchanged by a call that returns. -/
theorem gen_fixedOrder (R : Rand σ) (fuel : Nat) :
    ∀ (g : Gen), g.fixedOrder = true → ∀ (st : State σ) (g' : Gen) (st' : State σ),
      Gen.gen R fuel g st = .ok g' st' → g' = g := by
  induction fuel with
  | zero => intro g _ st g' st' h; cases h
  | succ fuel ih =>
    intro g hg st g' st' h
    cases g with
    | Repeat G N =>
      rw [gen_Repeat, Repeat.Gen] at h
      exact forN_fixed _ _ (fun s a' s' hs => ih _ hg s a' s' hs) _ st g' st' h
    | Chain v =>
      rw [gen_Chain, Chain.Gen] at h
      obtain ⟨v', h1, h2⟩ := map_eq_ok h
      have hv : fixedOrderList v = true := by simpa [Gen.fixedOrder] using hg
      rw [← h2, rangeLoop_fixed _ v
        (fun x hx s x' s' hs => ih x ((fixedOrderList_iff v).1 hv x hx) s x' s' hs) st v' st' h1]
    | Pick v =>
      rw [gen_Pick, Pick.Gen] at h
      obtain ⟨v', h1, h2⟩ := map_eq_ok h
      obtain ⟨i, st1, h3, h4⟩ := bind_eq_ok h1
      have hv : fixedOrderList v = true := by simpa [Gen.fixedOrder] using hg
      cases hx : v[i]? with
      | none => rw [hx] at h4; cases h4
      | some x =>
        rw [hx] at h4
        obtain ⟨x', h5, h6⟩ := map_eq_ok h4
        have hmem : x ∈ v := List.getElem?_mem hx
        have e := ih x ((fixedOrderList_iff v).1 hv x hmem) st1 x' st' h5
        subst e
        rw [← h2, ← h6]
        congr 1
        obtain ⟨hi, hxi⟩ := List.getElem?_eq_some_iff.1 hx
        rw [← hxi]
        exact set_getElem_same v i hi
    | Shuffle v =>
      rw [gen_Shuffle, Shuffle.Gen] at h
      obtain ⟨v', h1, h2⟩ := map_eq_ok h
      obtain ⟨v1, st1, h3, h4⟩ := bind_eq_ok h1
      have hv : v.length ≤ 1 ∧ fixedOrderList v = true := by simpa [Gen.fixedOrder] using hg
      have h0 : v.length - 1 = 0 := by omega
      rw [h0] at h3
      simp only [shuffleLoop, Outcome.ok.injEq] at h3
      rw [← h3.1] at h4
      rw [← h2, rangeLoop_fixed _ v
        (fun x hx s x' s' hs => ih x ((fixedOrderList_iff v).1 hv.2 x hx) s x' s' hs) st1 v' st' h4]
    | Option G =>
      rw [gen_Option, Option.Gen] at h
      obtain ⟨G', h1, h2⟩ := map_eq_ok h
      have hG : G.fixedOrder = true := by simpa [Gen.fixedOrder] using hg
      split at h1
      · rw [← h2, ih G hG _ G' st' h1]
      · simp only [Outcome.ok.injEq] at h1
        rw [← h2, h1.1]
    | May G N D =>
      rw [gen_May, May.Gen] at h
      obtain ⟨G', h1, h2⟩ := map_eq_ok h
      obtain ⟨d, st1, h3, h4⟩ := bind_eq_ok h1
      have hG : G.fixedOrder = true := by simpa [Gen.fixedOrder] using hg
      split at h4
      · rw [← h2, ih G hG _ G' st' h4]
      · simp only [Outcome.ok.injEq] at h4
        rw [← h2, h4.1]
    | RuneTable v => obtain ⟨_, _, h2⟩ := map_eq_ok h; exact h2.symm
    | ByteTable v => obtain ⟨_, _, h2⟩ := map_eq_ok h; exact h2.symm
    | LowerAlphabet v => obtain ⟨_, _, h2⟩ := map_eq_ok h; exact h2.symm
    | UpperAlphabet v => obtain ⟨_, _, h2⟩ := map_eq_ok h; exact h2.symm
    | Alphabet v => obtain ⟨_, _, h2⟩ := map_eq_ok h; exact h2.symm
    | AlphaNumeric v => obtain ⟨_, _, h2⟩ := map_eq_ok h; exact h2.symm
    | Number v => obtain ⟨_, _, h2⟩ := map_eq_ok h; exact h2.symm
    | Bytes v =>
      rw [gen_Bytes, Outcome.ok.injEq] at h
      exact h.1.symm
    | String v =>
      rw [gen_String, Outcome.ok.injEq] at h
      exact h.1.symm

end Stable

/-- C3, the claim as stated fails.  With a source created from the same seed
for both calls (its two answers are 7 and 4), the first call of
`New(source, Shuffle{String("111"), String("222"), String("333")})` returns
"333111222" and leaves the list reordered; the second call, given the same
`Shuffle` value, returns "222333111". -/
theorem C3_Shuffle_breaks_repeatability :
    New script 2 [] [7, 4] [.Shuffle exampleLiterals] =
      .ok (str "333111222", [.Shuffle [.String (str "333"), .String (str "111"), .String (str "222")]])
        { rnd := [], buf := str "333111222", draws := 2, reads := 0 } ∧
    New script 2 (str "333111222") [7, 4]
        [.Shuffle [.String (str "333"), .String (str "111"), .String (str "222")]] =
      .ok (str "222333111", [.Shuffle [.String (str "222"), .String (str "333"), .String (str "111")]])
        { rnd := [], buf := str "222333111", draws := 2, reads := 0 } ∧
    str "333111222" ≠ str "222333111" :=
  ⟨rfl, rfl, by decide⟩

/-- C3 (amended).  When no `Shuffle` list of two or more elements occurs in
the generator values and the first call of `New` returns, it leaves the
generator values as they were, and a second call given a source freshly
created from the same seed returns the identical string, whatever the pooled
buffer holds. -/
theorem C3_repeatable_without_reordering {σ : Type} (R : Rand σ) (fuel : Nat)
    (pooled pooled' : List Nat) (seed : σ) (list : List Gen)
    (hfix : fixedOrderList list = true) (ret : List Nat) (list' : List Gen) (st : State σ)
    (h : New R fuel pooled seed list = .ok (ret, list') st) :
    list' = list ∧ New R fuel pooled' seed list' = .ok (ret, list') st := by
  have h' := h
  rw [New] at h'
  obtain ⟨l1, st1, h1, h2⟩ := bind_eq_ok h'
  simp only [Outcome.ok.injEq, Prod.mk.injEq] at h2
  have e : l1 = list := rangeLoop_fixed _ list
    (fun x hx s x' s' hs => gen_fixedOrder R fuel x ((fixedOrderList_iff list).1 hfix x hx) s x' s' hs)
    _ l1 st1 h1
  have e' : list' = list := by rw [← h2.1.2, e]
  refine ⟨e', ?_⟩
  rw [← h, e']
  rfl

/-- C3 (amended) at `New(source, Number(10), Option{Number(1)})` with a source
whose answers are 3, 1, 4, 1, 5, 9, 2, 6, 5, 3, then the byte 7 and the answer
8. -/
theorem C3_repeatable_without_reordering_witness :
    fixedOrderList [.Number 10, .Option (.Number 1)] = true ∧
    New script 2 [] [3, 1, 4, 1, 5, 9, 2, 6, 5, 3, 7, 8] [.Number 10, .Option (.Number 1)] =
      .ok (str "31415926538", [.Number 10, .Option (.Number 1)])
        { rnd := [], buf := str "31415926538", draws := 11, reads := 1 } ∧
    ([Gen.Number 10, .Option (.Number 1)] = [.Number 10, .Option (.Number 1)] ∧
      New script 2 (str "31415926538") [3, 1, 4, 1, 5, 9, 2, 6, 5, 3, 7, 8]
          [.Number 10, .Option (.Number 1)] =
        .ok (str "31415926538", [.Number 10, .Option (.Number 1)])
          { rnd := [], buf := str "31415926538", draws := 11, reads := 1 }) :=
  ⟨rfl, rfl, C3_repeatable_without_reordering script 2 [] (str "31415926538")
    [3, 1, 4, 1, 5, 9, 2, 6, 5, 3, 7, 8] [.Number 10, .Option (.Number 1)] rfl
    (str "31415926538") [.Number 10, .Option (.Number 1)]
    { rnd := [], buf := str "31415926538", draws := 11, reads := 1 } rfl⟩

/-! ## Shuffle -/

section Swap

variable {α : Type}

theorem swap_eq_some {v : List α} {i j : Nat} (hi : i < v.length) (hj : j < v.length) :
    swap v i j = some ((v.set i v[j]).set j v[i]) := by
  simp [swap, List.getElem?_eq_getElem hi, List.getElem?_eq_getElem hj]

theorem swap_some_iff {v v' : List α} {i j : Nat} (h : swap v i j = some v') :
    ∃ (hi : i < v.length) (hj : j < v.length), v' = (v.set i v[j]).set j v[i] := by
  unfold swap at h
  cases hi : v[i]? with
  | none => simp [hi] at h
  | some a =>
    cases hj : v[j]? with
    | none => simp [hi, hj] at h
    | some b =>
      obtain ⟨hi', ha⟩ := List.getElem?_eq_some_iff.1 hi
      obtain ⟨hj', hb⟩ := List.getElem?_eq_some_iff.1 hj
      refine ⟨hi', hj', ?_⟩
      simp [hi, hj] at h
      rw [← h, ha, hb]

theorem swap_length {v v' : List α} {i j : Nat} (h : swap v i j = some v') :
    v'.length = v.length := by
  obtain ⟨_, _, e⟩ := swap_some_iff h
  simp [e]

/-- Overwriting position `j` of `l` with `a` and putting the old entry in
front is a rearrangement of `a :: l`. -/
theorem set_cons_perm (l : List α) (j : Nat) (a b : α) (h : l[j]? = some b) :
    (b :: l.set j a).Perm (a :: l) := by
  induction l generalizing j with
  | nil => simp at h
  | cons x xs ih =>
    cases j with
    | zero =>
      simp only [List.getElem?_cons_zero, Option.some.injEq] at h
      subst h
      exact List.Perm.swap _ _ _
    | succ j =>
      simp only [List.getElem?_cons_succ] at h
      have := ih j h
      simp only [List.set_cons_succ]
      exact (List.Perm.swap _ _ _).trans (((this.cons x)).trans (List.Perm.swap _ _ _))

/-- The assignment `v[i], v[j] = v[j], v[i]` rearranges the slice. -/
theorem swap_perm {v v' : List α} {i j : Nat} (h : swap v i j = some v') : v'.Perm v := by
  induction v generalizing i j v' with
  | nil => simp [swap] at h
  | cons x xs ih =>
    obtain ⟨hi, hj, e⟩ := swap_some_iff h
    subst e
    cases i with
    | zero =>
      cases j with
      | zero => simp
      | succ j =>
        simp only [List.length_cons, Nat.add_lt_add_iff_right] at hj
        simp only [List.getElem_cons_succ, List.set_cons_zero, List.set_cons_succ,
          List.getElem_cons_zero]
        exact set_cons_perm xs j x xs[j] (List.getElem?_eq_getElem hj)
    | succ i =>
      cases j with
      | zero =>
        simp only [List.length_cons, Nat.add_lt_add_iff_right] at hi
        simp only [List.getElem_cons_succ, List.set_cons_zero, List.set_cons_succ,
          List.getElem_cons_zero]
        exact set_cons_perm xs i x xs[i] (List.getElem?_eq_getElem hi)
      | succ j =>
        simp only [List.length_cons, Nat.add_lt_add_iff_right] at hi hj
        simp only [List.getElem_cons_succ, List.set_cons_succ]
        exact (ih (swap_eq_some hi hj)).cons x

end Swap

section Permute

variable {α : Type}

theorem swap_getElem?_left {v v' : List α} {i j : Nat} (h : swap v i j = some v') :
    v'[i]? = v[j]? := by
  obtain ⟨hi, hj, e⟩ := swap_some_iff h
  subst e
  by_cases hij : j = i
  · subst hij
    rw [set_getElem_same v j hi, set_getElem_same v j hi]
  · rw [List.getElem?_set_ne hij, List.getElem?_set_self hi, List.getElem?_eq_getElem hj]

theorem swap_getElem?_other {v v' : List α} {i j k : Nat} (h : swap v i j = some v')
    (hki : k ≠ i) (hkj : k ≠ j) : v'[k]? = v[k]? := by
  obtain ⟨hi, hj, e⟩ := swap_some_iff h
  subst e
  rw [List.getElem?_set_ne (Ne.symm hkj), List.getElem?_set_ne (Ne.symm hki)]

theorem permute_zero (js : List Nat) (v : List α) : permute 0 js v = some v := rfl

theorem permute_succ (i j : Nat) (js : List Nat) (v : List α) :
    permute (i + 1) (j :: js) v = (swap v (i + 1) j).bind (permute i js) := rfl

theorem inRange_succ_iff (i : Nat) (js : List Nat) :
    inRange (i + 1) js = true ↔ ∃ j t, js = j :: t ∧ j ≤ i + 1 ∧ inRange i t = true := by
  cases js with
  | nil => simp [inRange]
  | cons j t =>
    constructor
    · intro h
      simp only [inRange, Bool.and_eq_true, decide_eq_true_eq] at h
      exact ⟨j, t, rfl, h.1, h.2⟩
    · rintro ⟨j', t', e, h1, h2⟩
      simp only [List.cons.injEq] at e
      simp only [inRange, Bool.and_eq_true, decide_eq_true_eq]
      rw [e.1, e.2]
      exact ⟨h1, h2⟩

theorem inRange_zero_iff (js : List Nat) : inRange 0 js = true ↔ js = [] := by
  cases js with
  | nil => simp [inRange]
  | cons j t => simp [inRange]

theorem inRange_length {i : Nat} {js : List Nat} (h : inRange i js = true) : js.length = i := by
  induction i generalizing js with
  | zero => simp [(inRange_zero_iff js).1 h]
  | succ i ih =>
    obtain ⟨j, t, rfl, -, ht⟩ := (inRange_succ_iff i js).1 h
    simp [ih ht]

/-- The loop only rearranges the slice. -/
theorem permute_perm {i : Nat} {js : List Nat} {v v' : List α}
    (h : permute i js v = some v') : v'.Perm v := by
  induction i generalizing js v with
  | zero =>
    simp only [permute_zero, Option.some.injEq] at h
    rw [h]
  | succ i ih =>
    cases js with
    | nil => simp [permute] at h
    | cons j t =>
      rw [permute_succ] at h
      obtain ⟨v1, h1, h2⟩ := Option.bind_eq_some.1 h
      exact (ih h2).trans (swap_perm h1)

/-- A loop entered at `i` leaves the positions above `i` alone. -/
theorem permute_frame {i : Nat} {js : List Nat} {v v' : List α}
    (h : permute i js v = some v') (hin : inRange i js = true) (k : Nat) (hk : i < k) :
    v'[k]? = v[k]? := by
  induction i generalizing js v with
  | zero =>
    simp only [permute_zero, Option.some.injEq] at h
    rw [h]
  | succ i ih =>
    obtain ⟨j, t, rfl, hj, ht⟩ := (inRange_succ_iff i js).1 hin
    rw [permute_succ] at h
    obtain ⟨v1, h1, h2⟩ := Option.bind_eq_some.1 h
    rw [ih h2 ht (by omega)]
    exact swap_getElem?_other h1 (by omega) (by omega)

/-- In-range answers never index outside the slice. -/
theorem permute_isSome {i : Nat} {js : List Nat} (v : List α) (hin : inRange i js = true)
    (hi : i < v.length ∨ i = 0) : ∃ v', permute i js v = some v' := by
  induction i generalizing js v with
  | zero => exact ⟨v, rfl⟩
  | succ i ih =>
    obtain ⟨j, t, rfl, hj, ht⟩ := (inRange_succ_iff i js).1 hin
    have hi' : i + 1 < v.length := by omega
    have hs := swap_eq_some hi' (show j < v.length by omega)
    obtain ⟨v', hv'⟩ := ih ((v.set (i + 1) v[j]).set j v[i + 1]) ht
      (Or.inl (by simp; omega))
    exact ⟨v', by rw [permute_succ, hs, Option.some_bind, hv']⟩

end Permute

section Link

variable {σ : Type}

theorem shuffleLoop_zero (R : Rand σ) (v : List Gen) (st : State σ) :
    shuffleLoop R 0 v st = .ok v st := rfl

theorem shuffleLoop_succ (R : Rand σ) (i : Nat) (v : List Gen) (st : State σ) :
    shuffleLoop R (i + 1) v st =
      (Intn R (((i + 1 : Nat) : Int) + 1) st).bind fun j st' =>
        match swap v (i + 1) j with
        | some v' => shuffleLoop R i v' st'
        | none => .panic st' := rfl

/-- The shuffle loop on any source: it returns, its `i` draws are in range,
and the slice it leaves is `permute` of those answers. -/
theorem shuffleLoop_eq_permute (R : Rand σ) (i : Nat) (v : List Gen) (st : State σ)
    (hi : i < v.length ∨ i = 0) :
    ∃ js v' st', inRange i js = true ∧ permute i js v = some v' ∧
      shuffleLoop R i v st = .ok v' st' ∧ st'.buf = st.buf ∧
      st'.draws = st.draws + i ∧ st'.reads = st.reads := by
  induction i generalizing v st with
  | zero => exact ⟨[], v, st, rfl, rfl, rfl, rfl, rfl, rfl⟩
  | succ i ih =>
    have hi' : i + 1 < v.length := by omega
    obtain ⟨j, st1, h1, hj, hb, hd, hr⟩ := Intn_pos R (i + 1 + 1) (by omega) st
    have hs := swap_eq_some hi' (show j < v.length by omega)
    obtain ⟨js, v', st', hin, hp, hl, hb', hd', hr'⟩ :=
      ih ((v.set (i + 1) v[j]).set j v[i + 1]) st1 (Or.inl (by simp; omega))
    refine ⟨j :: js, v', st', ?_, ?_, ?_, by rw [hb', hb], by omega, by rw [hr', hr]⟩
    · simp only [inRange, hin, Bool.and_true, decide_eq_true_eq]; omega
    · rw [permute_succ, hs, Option.some_bind, hp]
    · rw [shuffleLoop_succ]
      have e : (((i + 1 : Nat) : Int) + 1) = ((i + 1 + 1 : Nat) : Int) := by push_cast; ring
      rw [e, h1, bind_ok, hs]
      exact hl

theorem script_intn_cons (d : Nat) (ds : List Nat) (n : Nat) :
    script.intn (d :: ds) n = (d % n, ds) := rfl

/-- The shuffle loop on the replaying source takes its answers from the
script. -/
theorem shuffleLoop_script (i : Nat) (js rest : List Nat) (v v' : List Gen)
    (b : List Nat) (d r : Nat) (hin : inRange i js = true)
    (hp : permute i js v = some v') :
    shuffleLoop script i v { rnd := js ++ rest, buf := b, draws := d, reads := r } =
      .ok v' { rnd := rest, buf := b, draws := d + i, reads := r } := by
  induction i generalizing js v d with
  | zero =>
    rw [(inRange_zero_iff js).1 hin]
    simp only [permute_zero, Option.some.injEq] at hp
    rw [shuffleLoop_zero, hp]
    rfl
  | succ i ih =>
    obtain ⟨j, t, rfl, hj, ht⟩ := (inRange_succ_iff i js).1 hin
    rw [permute_succ] at hp
    obtain ⟨v1, h1, h2⟩ := Option.bind_eq_some.1 hp
    rw [shuffleLoop_succ]
    have hpos : ¬ ((((i + 1 : Nat) : Int) + 1) ≤ 0) := by omega
    have hn : ((((i + 1 : Nat) : Int) + 1)).toNat = i + 2 := by omega
    have hm : j % (i + 2) = j := Nat.mod_eq_of_lt (by omega)
    simp only [Intn, hpos, if_false, hn, List.cons_append, script_intn_cons, hm, bind_ok, h1]
    rw [ih t v1 (d + 1) ht h2]
    congr 2
    omega

end Link

section ShuffleGen

variable {σ : Type}

theorem swap_map {α β : Type} (f : α → β) (v : List α) (i j : Nat) :
    swap (v.map f) i j = (swap v i j).map (List.map f) := by
  unfold swap
  cases hi : v[i]? with
  | none => simp [hi]
  | some a =>
    cases hj : v[j]? with
    | none => simp [hi, hj]
    | some b => simp [hi, hj, List.map_set]

/-- The loop treats the elements as opaque: it commutes with mapping. -/
theorem permute_map {α β : Type} (f : α → β) (i : Nat) (js : List Nat) (v : List α) :
    permute i js (v.map f) = (permute i js v).map (List.map f) := by
  induction i generalizing js v with
  | zero => rfl
  | succ i ih =>
    cases js with
    | nil => rfl
    | cons j t =>
      rw [permute_succ, permute_succ, swap_map]
      cases swap v (i + 1) j with
      | none => rfl
      | some v1 => simp [ih]

/-- A list of `String` literals appends the payloads in order, takes no draw
and is left unchanged. -/
theorem rangeLoop_strings (R : Rand σ) (fuel : Nat) (qs : List (List Nat)) (st : State σ) :
    rangeLoop (Gen.gen R (fuel + 1)) (qs.map Gen.String) st =
      .ok (qs.map Gen.String) { st with buf := st.buf ++ qs.flatten } := by
  induction qs generalizing st with
  | nil => simp [rangeLoop]
  | cons q qs ih =>
    simp [rangeLoop, gen_String, bind_ok, ih, map_ok, WriteString]

end ShuffleGen

/-- C6.  `Shuffle.Gen` first runs the swap loop, which returns after
`len - 1` draws without writing and leaves a rearrangement `v'` of the list,
and then invokes every element of `v'` once, in the order of `v'` (the range
loop of `Chain.Gen`).  When the elements have no list of their own to reorder,
the list that a returning call leaves behind is a rearrangement of the
original.  When the elements are `String` literals the call returns, the
output is the concatenation of the literals in a rearranged order `qs`, and
the list left behind is the literals in that order. -/
theorem C6_Shuffle_runs_a_permutation {σ : Type} (R : Rand σ) (fuel : Nat) (v : List Gen)
    (st : State σ) :
    (∃ v' st1, shuffleLoop R (v.length - 1) v st = .ok v' st1 ∧ v'.Perm v ∧
      st1.buf = st.buf ∧ st1.draws = st.draws + (v.length - 1) ∧ st1.reads = st.reads ∧
      Gen.gen R (fuel + 1) (.Shuffle v) st =
        (Chain.Gen (Gen.gen R fuel) v' st1).map Gen.Shuffle) ∧
    (fixedOrderList v = true → ∀ g' st', Gen.gen R (fuel + 1) (.Shuffle v) st = .ok g' st' →
      ∃ v'', g' = .Shuffle v'' ∧ v''.Perm v) ∧
    ∀ ps : List (List Nat), v = ps.map Gen.String →
      ∃ (qs : List (List Nat)) (st' : State σ), qs.Perm ps ∧
        Gen.gen R (fuel + 2) (.Shuffle v) st = .ok (.Shuffle (qs.map Gen.String)) st' ∧
        st'.buf = st.buf ++ qs.flatten ∧ st'.draws = st.draws + (v.length - 1) ∧
        st'.reads = st.reads := by
  have hi : v.length - 1 < v.length ∨ v.length - 1 = 0 := by omega
  obtain ⟨js, v', st1, hin, hp, hl, hb, hd, hr⟩ := shuffleLoop_eq_permute R _ v st hi
  have hg : ∀ f, Gen.gen R (f + 1) (.Shuffle v) st =
      (Chain.Gen (Gen.gen R f) v' st1).map Gen.Shuffle := by
    intro f
    rw [gen_Shuffle, Shuffle.Gen, hl, bind_ok]
  have hperm : v'.Perm v := permute_perm hp
  refine ⟨⟨v', st1, hl, hperm, hb, hd, hr, hg fuel⟩, ?_, ?_⟩
  · intro hfix g' st' h
    rw [hg fuel, Chain.Gen] at h
    obtain ⟨v'', h1, h2⟩ := map_eq_ok h
    have hfix' : ∀ x ∈ v', x.fixedOrder = true := fun x hx =>
      (fixedOrderList_iff v).1 hfix x (hperm.mem_iff.1 hx)
    have e : v'' = v' := rangeLoop_fixed _ v'
      (fun x hx s x' s' hs => gen_fixedOrder R fuel x (hfix' x hx) s x' s' hs) st1 v'' st' h1
    exact ⟨v'', h2.symm, by rw [e]; exact hperm⟩
  · intro ps hps
    subst hps
    rw [permute_map] at hp
    obtain ⟨qs, hq, hqv⟩ := Option.map_eq_some'.1 hp
    subst hqv
    refine ⟨qs, { st1 with buf := st1.buf ++ qs.flatten }, permute_perm hq, ?_, ?_, hd, hr⟩
    · rw [hg (fuel + 1), Chain.Gen, rangeLoop_strings, map_ok]
    · simp [hb]

section FisherYates

variable {α : Type}

/-- Two in-range answer vectors that lead a list of pairwise distinct elements
to the same order are equal. -/
theorem permute_inj {i : Nat} {js js' : List Nat} {v p : List α} (hnd : v.Nodup)
    (hi : i < v.length ∨ i = 0) (hin : inRange i js = true) (hin' : inRange i js' = true)
    (h : permute i js v = some p) (h' : permute i js' v = some p) : js = js' := by
  induction i generalizing js js' v with
  | zero => rw [(inRange_zero_iff js).1 hin, (inRange_zero_iff js').1 hin']
  | succ i ih =>
    obtain ⟨j, t, rfl, hj, ht⟩ := (inRange_succ_iff i js).1 hin
    obtain ⟨j', t', rfl, hj', ht'⟩ := (inRange_succ_iff i js').1 hin'
    rw [permute_succ] at h h'
    obtain ⟨v1, h1, h2⟩ := Option.bind_eq_some.1 h
    obtain ⟨v1', h1', h2'⟩ := Option.bind_eq_some.1 h'
    have hlen : i + 1 < v.length := by omega
    have e1 : p[i + 1]? = v[j]? :=
      (permute_frame h2 ht (i + 1) (by omega)).trans (swap_getElem?_left h1)
    have e2 : p[i + 1]? = v[j']? :=
      (permute_frame h2' ht' (i + 1) (by omega)).trans (swap_getElem?_left h1')
    have hjl : j < v.length := by omega
    have hjl' : j' < v.length := by omega
    have hjj : j = j' := by
      have e3 := e1.symm.trans e2
      rw [List.getElem?_eq_getElem hjl, List.getElem?_eq_getElem hjl', Option.some.injEq] at e3
      exact (hnd.getElem_inj_iff).1 e3
    subst hjj
    have hv : v1 = v1' := Option.some.inj (h1.symm.trans h1')
    subst hv
    have hnd1 : v1.Nodup := (swap_perm h1).nodup_iff.2 hnd
    have hl1 : i < v1.length ∨ i = 0 := Or.inl (by rw [swap_length h1]; omega)
    rw [ih hnd1 hl1 ht ht' h2 h2']

theorem perm_eq_of_length_le_one {l l' : List α} (h : l.Perm l') (hl : l'.length ≤ 1) :
    l = l' := by
  cases l' with
  | nil => exact List.Perm.eq_nil h
  | cons a t =>
    cases t with
    | nil => exact List.perm_singleton.1 h
    | cons b t => simp at hl

theorem swap_take {v v1 : List α} {i j m : Nat} (h : swap v i j = some v1) (hi : i < m)
    (hj : j < m) : swap (v.take m) i j = some (v1.take m) := by
  obtain ⟨hil, hjl, e⟩ := swap_some_iff h
  subst e
  have h1 : i < (v.take m).length := by simp; omega
  have h2 : j < (v.take m).length := by simp; omega
  rw [swap_eq_some h1 h2, List.set_take, List.set_take]
  simp [List.getElem_take]

/-- Every order that differs from the slice only within the first `i + 1`
positions is produced by a loop entered at `i`, for some in-range answers. -/
theorem permute_surj {i : Nat} {v p : List α} (hi : i < v.length ∨ i = 0)
    (htake : (p.take (i + 1)).Perm (v.take (i + 1)))
    (hdrop : p.drop (i + 1) = v.drop (i + 1)) :
    ∃ js, inRange i js = true ∧ permute i js v = some p := by
  induction i generalizing v with
  | zero =>
    refine ⟨[], rfl, ?_⟩
    have e : p.take 1 = v.take 1 := perm_eq_of_length_le_one htake (by simp)
    rw [permute_zero, ← List.take_append_drop 1 v, ← e, ← hdrop, List.take_append_drop]
  | succ i ih =>
    have hlen : i + 1 < v.length := by omega
    have hplen : i + 1 < p.length := by
      have h1 := htake.length_eq
      have h2 := congrArg List.length hdrop
      simp only [List.length_take, List.length_drop] at h1 h2
      omega
    have hpa : p[i + 1]? = some p[i + 1] := List.getElem?_eq_getElem hplen
    have htp : p.take (i + 1 + 1) = p.take (i + 1) ++ [p[i + 1]] := by
      rw [List.take_succ, hpa]; rfl
    have hmem : p[i + 1] ∈ v.take (i + 1 + 1) := by
      have h0 : p[i + 1] ∈ p.take (i + 1) ++ [p[i + 1]] :=
        List.mem_append_right _ (List.mem_singleton_self _)
      rw [← htp] at h0
      exact htake.mem_iff.1 h0
    obtain ⟨j, hjv⟩ := List.mem_iff_getElem?.1 hmem
    have hj : j < i + 1 + 1 := by
      by_contra hcon
      rw [List.getElem?_take_eq_none (by omega)] at hjv
      cases hjv
    rw [List.getElem?_take_of_lt hj] at hjv
    have hjl : j < v.length := (List.getElem?_eq_some_iff.1 hjv).1
    have hs := swap_eq_some hlen hjl
    generalize hv1 : (v.set (i + 1) v[j]).set j v[i + 1] = v1 at hs
    have hv1a : v1[i + 1]? = some p[i + 1] := (swap_getElem?_left hs).trans hjv
    have htv1 : v1.take (i + 1 + 1) = v1.take (i + 1) ++ [p[i + 1]] := by
      rw [List.take_succ, hv1a]; rfl
    have hperm1 : (v1.take (i + 1 + 1)).Perm (v.take (i + 1 + 1)) :=
      swap_perm (swap_take hs (by omega) hj)
    have htake1 : (p.take (i + 1)).Perm (v1.take (i + 1)) := by
      have h3 := htake.trans hperm1.symm
      rw [htp, htv1] at h3
      exact (List.perm_append_right_iff _).1 h3
    have hdrop1 : p.drop (i + 1) = v1.drop (i + 1) := by
      rw [List.drop_eq_getElem?_toList_append, List.drop_eq_getElem?_toList_append (l := v1),
        hpa, hv1a, hdrop, ← hv1, List.drop_set_of_lt _ _ (by omega),
        List.drop_set_of_lt _ _ (by omega)]
    obtain ⟨t, ht, hpt⟩ := ih (v := v1) (Or.inl (by rw [swap_length hs]; omega)) htake1 hdrop1
    refine ⟨j :: t, ?_, ?_⟩
    · simp only [inRange, ht, Bool.and_true, decide_eq_true_eq]; omega
    · rw [permute_succ, hs, Option.some_bind, hpt]

/-- Every rearrangement of the slice is produced by the full loop for some
in-range answers. -/
theorem permute_reaches {v p : List α} (h : p.Perm v) :
    ∃ js, inRange (v.length - 1) js = true ∧ permute (v.length - 1) js v = some p := by
  apply permute_surj (by omega)
  · have e : v.length - 1 + 1 ≥ v.length := by omega
    rw [List.take_of_length_le (by rw [h.length_eq]; exact e), List.take_of_length_le e]
    exact h
  · have e : v.length ≤ v.length - 1 + 1 := by omega
    rw [List.drop_of_length_le (by rw [h.length_eq]; exact e), List.drop_of_length_le e]

theorem mem_drawVectors (i : Nat) (js : List Nat) :
    js ∈ drawVectors i ↔ inRange i js = true := by
  induction i generalizing js with
  | zero => simp [drawVectors, inRange_zero_iff]
  | succ i ih =>
    rw [inRange_succ_iff]
    simp only [drawVectors, List.mem_flatMap, List.mem_range, List.mem_map]
    constructor
    · rintro ⟨j, hj, t, ht, rfl⟩
      exact ⟨j, t, rfl, by omega, (ih t).1 ht⟩
    · rintro ⟨j, t, rfl, hj, ht⟩
      exact ⟨j, by omega, t, (ih t).2 ht, rfl⟩

theorem length_drawVectors (i : Nat) : (drawVectors i).length = (i + 1).factorial := by
  induction i with
  | zero => rfl
  | succ i ih =>
    rw [drawVectors, List.length_flatMap]
    have : (List.map (List.length ∘ fun j => List.map (fun x => j :: x) (drawVectors i))
        (List.range (i + 2))) = List.replicate (i + 2) (i + 1).factorial := by
      rw [List.eq_replicate_iff]
      constructor
      · simp
      · intro b hb
        simp only [List.mem_map, List.mem_range, Function.comp] at hb
        obtain ⟨j, -, rfl⟩ := hb
        simp [ih]
    rw [this, List.sum_const_nat, Nat.factorial_succ (i + 1)]

end FisherYates

/-- The literals of the test are pairwise distinct. -/
theorem exampleLiterals_nodup : exampleLiterals.Nodup := by
  have e : exampleLiterals = [[49, 49, 49], [50, 50, 50], [51, 51, 51]].map Gen.String := rfl
  rw [e]
  refine List.Nodup.map ?_ (by decide)
  intro a b h
  exact Gen.String.inj h

/-- C7.  For a `Shuffle` list `v` of `K` pairwise distinct elements the swap
loop is a one-to-one correspondence between the answer vectors
`(j_{K-1}, ..., j_1)` with `j_i <= i` and the orderings of `v`: there are `K!`
such vectors (`drawVectors`) and `K!` orderings; every such vector, replayed
as the answers of `Intn`, makes the loop return an ordering of `v`; and every
ordering `p` of `v` is returned for exactly one such vector. -/
theorem C7_shuffle_loop_bijection (v : List Gen) (hnd : v.Nodup) (b : List Nat) (d r : Nat) :
    (drawVectors (v.length - 1)).length = v.length.factorial ∧
    v.permutations.length = v.length.factorial ∧
    (∀ js, js ∈ drawVectors (v.length - 1) ↔ inRange (v.length - 1) js = true) ∧
    (∀ js, js ∈ drawVectors (v.length - 1) → ∃ p, p ∈ v.permutations ∧
      shuffleLoop script (v.length - 1) v { rnd := js, buf := b, draws := d, reads := r } =
        .ok p { rnd := [], buf := b, draws := d + (v.length - 1), reads := r }) ∧
    ∀ p, p ∈ v.permutations → ∃! js, js ∈ drawVectors (v.length - 1) ∧
      shuffleLoop script (v.length - 1) v { rnd := js, buf := b, draws := d, reads := r } =
        .ok p { rnd := [], buf := b, draws := d + (v.length - 1), reads := r } := by
  have hi : v.length - 1 < v.length ∨ v.length - 1 = 0 := by omega
  have hrun : ∀ js p, inRange (v.length - 1) js = true → permute (v.length - 1) js v = some p →
      shuffleLoop script (v.length - 1) v { rnd := js, buf := b, draws := d, reads := r } =
        .ok p { rnd := [], buf := b, draws := d + (v.length - 1), reads := r } := by
    intro js p hin hp
    have := shuffleLoop_script (v.length - 1) js [] v p b d r hin hp
    rwa [List.append_nil] at this
  refine ⟨?_, List.length_permutations v, mem_drawVectors _, ?_, ?_⟩
  · rw [length_drawVectors]
    rcases Nat.eq_zero_or_pos v.length with h0 | hpos
    · rw [h0]; rfl
    · rw [Nat.sub_add_cancel hpos]
  · intro js hjs
    have hin := (mem_drawVectors _ js).1 hjs
    obtain ⟨p, hp⟩ := permute_isSome v hin hi
    exact ⟨p, List.mem_permutations.2 (permute_perm hp), hrun js p hin hp⟩
  · intro p hp
    obtain ⟨js, hin, hjs⟩ := permute_reaches (List.mem_permutations.1 hp)
    refine ⟨js, ⟨(mem_drawVectors _ js).2 hin, hrun js p hin hjs⟩, ?_⟩
    rintro js' ⟨hmem', hrun'⟩
    have hin' := (mem_drawVectors _ js').1 hmem'
    obtain ⟨p', hp'⟩ := permute_isSome v hin' hi
    rw [hrun js' p' hin' hp', Outcome.ok.injEq] at hrun'
    rw [hrun'.1] at hp'
    exact permute_inj hnd hi hin' hin hp' hjs

/-- C7 at the list of the test, `Shuffle{String("111"), String("222"),
String("333")}`: 3! = 6 answer vectors, 6 orderings. -/
theorem C7_shuffle_loop_bijection_witness :
    exampleLiterals.Nodup ∧
    ((drawVectors (exampleLiterals.length - 1)).length = exampleLiterals.length.factorial ∧
    exampleLiterals.permutations.length = exampleLiterals.length.factorial ∧
    (∀ js, js ∈ drawVectors (exampleLiterals.length - 1) ↔
      inRange (exampleLiterals.length - 1) js = true) ∧
    (∀ js, js ∈ drawVectors (exampleLiterals.length - 1) → ∃ p, p ∈ exampleLiterals.permutations ∧
      shuffleLoop script (exampleLiterals.length - 1) exampleLiterals
          { rnd := js, buf := [], draws := 0, reads := 0 } =
        .ok p { rnd := [], buf := [], draws := 0 + (exampleLiterals.length - 1), reads := 0 }) ∧
    ∀ p, p ∈ exampleLiterals.permutations → ∃! js, js ∈ drawVectors (exampleLiterals.length - 1) ∧
      shuffleLoop script (exampleLiterals.length - 1) exampleLiterals
          { rnd := js, buf := [], draws := 0, reads := 0 } =
        .ok p { rnd := [], buf := [], draws := 0 + (exampleLiterals.length - 1), reads := 0 }) :=
  ⟨exampleLiterals_nodup, C7_shuffle_loop_bijection exampleLiterals exampleLiterals_nodup [] 0 0⟩

/-- C8.  Every ordering `p` of a `Shuffle` list `v` is reachable: there are
in-range answers `js` of `Intn` for which the swap loop leaves `p`, so that
`Shuffle.Gen` invokes the elements in the order `p`. -/
theorem C8_every_order_reachable (fuel : Nat) (v p : List Gen) (hp : p.Perm v)
    (rest b : List Nat) (d r : Nat) :
    ∃ js, inRange (v.length - 1) js = true ∧
      shuffleLoop script (v.length - 1) v
          { rnd := js ++ rest, buf := b, draws := d, reads := r } =
        .ok p { rnd := rest, buf := b, draws := d + (v.length - 1), reads := r } ∧
      Gen.gen script (fuel + 1) (.Shuffle v)
          { rnd := js ++ rest, buf := b, draws := d, reads := r } =
        (rangeLoop (Gen.gen script fuel) p
          { rnd := rest, buf := b, draws := d + (v.length - 1), reads := r }).map Gen.Shuffle := by
  obtain ⟨js, hin, hjs⟩ := permute_reaches hp
  have hl := shuffleLoop_script (v.length - 1) js rest v p b d r hin hjs
  refine ⟨js, hin, hl, ?_⟩
  rw [gen_Shuffle, Shuffle.Gen, hl, bind_ok, Chain.Gen]

/-- C8 at the ordering 333, 111, 222 of the list of the test. -/
theorem C8_every_order_reachable_witness :
    ([Gen.String (str "333"), .String (str "111"), .String (str "222")].Perm exampleLiterals) ∧
    ∃ js, inRange (exampleLiterals.length - 1) js = true ∧
      shuffleLoop script (exampleLiterals.length - 1) exampleLiterals
          { rnd := js ++ [], buf := [], draws := 0, reads := 0 } =
        .ok [Gen.String (str "333"), .String (str "111"), .String (str "222")]
          { rnd := [], buf := [], draws := 0 + (exampleLiterals.length - 1), reads := 0 } ∧
      Gen.gen script (1 + 1) (.Shuffle exampleLiterals)
          { rnd := js ++ [], buf := [], draws := 0, reads := 0 } =
        (rangeLoop (Gen.gen script 1)
          [Gen.String (str "333"), .String (str "111"), .String (str "222")]
          { rnd := [], buf := [], draws := 0 + (exampleLiterals.length - 1), reads := 0 }).map
            Gen.Shuffle :=
  ⟨(List.Perm.swap _ _ _).trans ((List.Perm.swap _ _ _).cons _),
    C8_every_order_reachable 1 exampleLiterals _
      ((List.Perm.swap _ _ _).trans ((List.Perm.swap _ _ _).cons _)) [] [] 0 0⟩

/-! ## Termination -/

section Returns

variable {σ : Type}

theorem callableList_iff (v : List Gen) :
    callableList v = true ↔ ∀ x ∈ v, x.callable = true := by
  induction v with
  | nil => simp [callableList]
  | cons x xs ih => simp [callableList, ih]

theorem depth_le_depthList {v : List Gen} {x : Gen} (hx : x ∈ v) : x.depth ≤ depthList v := by
  induction v with
  | nil => cases hx
  | cons y ys ih =>
    rcases List.mem_cons.1 hx with rfl | h
    · simp [depthList]
    · have := ih h
      simp only [depthList]
      omega

/-- One `RuneTable.Gen` on a non-empty table returns. -/
theorem RuneTable_Gen_ok (R : Rand σ) (t : List Int) (ht : t ≠ []) (st : State σ) :
    ∃ st', RuneTable.Gen R t st = .ok () st' := by
  obtain ⟨i, st1, h1, hi, -⟩ := Intn_pos R t.length (List.length_pos.2 ht) st
  exact ⟨WriteRune t[i] st1, by
    simp [RuneTable.Gen, RuneTable.Pick, h1, bind_ok, List.getElem?_eq_getElem hi]⟩

/-- A range loop all of whose calls return returns. -/
theorem rangeLoop_returns (call : Gen → State σ → Outcome σ Gen) (v : List Gen)
    (hcall : ∀ x ∈ v, ∀ st, ∃ x' st', call x st = .ok x' st') (st : State σ) :
    ∃ v' st', rangeLoop call v st = .ok v' st' := by
  induction v generalizing st with
  | nil => exact ⟨[], st, rfl⟩
  | cons x xs ih =>
    obtain ⟨x', st1, h1⟩ := hcall x (List.mem_cons_self _ _) st
    obtain ⟨xs', st2, h2⟩ := ih (fun y hy => hcall y (List.mem_cons_of_mem _ hy)) st1
    exact ⟨x' :: xs', st2, by rw [rangeLoop_cons, h1, bind_ok, h2, map_ok]⟩

/-- Generation runs to completion on every generator that meets the
construction preconditions and holds no `Repeat` with a positive count, as
soon as the call depth granted reaches the nesting depth. -/
theorem gen_returns (R : Rand σ) (fuel : Nat) :
    ∀ (g : Gen), g.callable = true → g.depth ≤ fuel → ∀ st : State σ,
      ∃ g' st', Gen.gen R fuel g st = .ok g' st' := by
  induction fuel with
  | zero =>
    intro g _ hd st
    cases g <;> simp [Gen.depth] at hd
  | succ fuel ih =>
    intro g hg hd st
    have hlist : ∀ v : List Gen, callableList v = true → depthList v ≤ fuel →
        ∀ x ∈ v, ∀ s, ∃ x' s', Gen.gen R fuel x s = .ok x' s' := fun v hv hdv x hx s =>
      ih x ((callableList_iff v).1 hv x hx) (le_trans (depth_le_depthList hx) hdv) s
    cases g with
    | Repeat G N =>
      have hN : N.toNat = 0 := by
        have : N ≤ 0 := by
          simp only [Gen.callable, Bool.and_eq_true, decide_eq_true_eq] at hg
          exact hg.1
        omega
      exact ⟨.Repeat G N, st, by rw [gen_Repeat, Repeat.Gen, hN]; rfl⟩
    | RuneTable v =>
      have hv : v ≠ [] := by
        intro h; simp [Gen.callable, h] at hg
      obtain ⟨st', h⟩ := RuneTable_Gen_ok R v hv st
      exact ⟨.RuneTable v, st', by simp only [Gen.gen, h, map_ok]⟩
    | ByteTable v =>
      have hv : v ≠ [] := by
        intro h; simp [Gen.callable, h] at hg
      obtain ⟨b, st', h, -⟩ := ByteTable_Gen_ok R v hv st
      exact ⟨_, st', by rw [gen_ByteTable, h, map_ok]⟩
    | LowerAlphabet v =>
      obtain ⟨bs, st', h, -⟩ := tableLoop_ok R (str "abcdefghijklmnopqrstuvwxyz") (by decide)
        v.toNat st
      exact ⟨.LowerAlphabet v, st', by simp only [Gen.gen, LowerAlphabet.Gen, h, map_ok]⟩
    | UpperAlphabet v =>
      obtain ⟨bs, st', h, -⟩ := tableLoop_ok R (str "ABCDEFGHIJKLMNOPQRSTUVWXYZ") (by decide)
        v.toNat st
      exact ⟨.UpperAlphabet v, st', by simp only [Gen.gen, UpperAlphabet.Gen, h, map_ok]⟩
    | Alphabet v =>
      obtain ⟨bs, st', h, -⟩ := tableLoop_ok R
        (str "abcdefghijklmnopqrstuvwxyzABCDEFGHIJKLMNOPQRSTUVWXYZ") (by decide) v.toNat st
      exact ⟨.Alphabet v, st', by simp only [Gen.gen, Alphabet.Gen, h, map_ok]⟩
    | AlphaNumeric v =>
      obtain ⟨bs, st', h, -⟩ := tableLoop_ok R
        (str "abcdefghijklmnopqrstuvwxyzABCDEFGHIJKLMNOPQRSTUVWXYZ0123456789") (by decide)
        v.toNat st
      exact ⟨.AlphaNumeric v, st', by simp only [Gen.gen, AlphaNumeric.Gen, h, map_ok]⟩
    | Number v =>
      obtain ⟨bs, st', h, -⟩ := gen_Number_ok R v fuel st
      exact ⟨_, st', h⟩
    | Chain v =>
      have hv : callableList v = true := by simpa [Gen.callable] using hg
      have hdv : depthList v ≤ fuel := by simp only [Gen.depth] at hd; omega
      obtain ⟨v', st', h⟩ := rangeLoop_returns _ v (hlist v hv hdv) st
      exact ⟨_, st', by rw [gen_Chain, Chain.Gen, h, map_ok]⟩
    | Pick v =>
      have hv : v ≠ [] ∧ callableList v = true := by
        simp only [Gen.callable, Bool.and_eq_true, Bool.not_eq_true', List.isEmpty_eq_false] at hg
        exact hg
      have hdv : depthList v ≤ fuel := by simp only [Gen.depth] at hd; omega
      obtain ⟨i, st1, h1, hi, -⟩ := Intn_pos R v.length (List.length_pos.2 hv.1) st
      obtain ⟨x', st', h2⟩ := hlist v hv.2 hdv v[i] (List.getElem_mem _) st1
      exact ⟨.Pick (v.set i x'), st', by
        rw [gen_Pick, Pick.Gen, h1, bind_ok, List.getElem?_eq_getElem hi]
        simp only [h2, map_ok]⟩
    | Bytes v => exact ⟨_, _, gen_Bytes R fuel v st⟩
    | String v => exact ⟨_, _, gen_String R fuel v st⟩
    | Shuffle v =>
      have hv : callableList v = true := by simpa [Gen.callable] using hg
      have hdv : depthList v ≤ fuel := by simp only [Gen.depth] at hd; omega
      obtain ⟨js, v', st1, -, hp, hl, -⟩ :=
        shuffleLoop_eq_permute R (v.length - 1) v st (by omega)
      have hperm : v'.Perm v := permute_perm hp
      obtain ⟨v'', st', h⟩ := rangeLoop_returns (Gen.gen R fuel) v'
        (fun x hx s => hlist v hv hdv x (hperm.mem_iff.1 hx) s) st1
      exact ⟨_, st', by rw [gen_Shuffle, Shuffle.Gen, hl, bind_ok, Chain.Gen, h, map_ok]⟩
    | Option G =>
      have hG : G.callable = true := by simpa [Gen.callable] using hg
      have hdG : G.depth ≤ fuel := by simp only [Gen.depth] at hd; omega
      rw [gen_Option, Option.Gen]
      split
      · obtain ⟨G', st', h⟩ := ih G hG hdG (getByte R st).2
        exact ⟨_, st', by rw [h, map_ok]⟩
      · exact ⟨_, _, rfl⟩
    | May G N D =>
      have hG : 0 < D ∧ G.callable = true := by
        simp only [Gen.callable, Bool.and_eq_true, decide_eq_true_eq] at hg
        exact hg
      have hdG : G.depth ≤ fuel := by simp only [Gen.depth] at hd; omega
      obtain ⟨d, st1, h1, -⟩ := Intn_pos R D.toNat (by omega) st
      have hD : ((D.toNat : Nat) : Int) = D := by omega
      rw [hD] at h1
      rw [gen_May, May.Gen, h1, bind_ok]
      split
      · obtain ⟨G', st', h⟩ := ih G hG.2 hdG st1
        exact ⟨_, st', by rw [h, map_ok]⟩
      · exact ⟨_, _, rfl⟩

/-- `New` returns a string on every argument list that meets the construction
preconditions and holds no `Repeat` with a positive count. -/
theorem New_returns (R : Rand σ) (pooled : List Nat) (source : σ) (list : List Gen)
    (hc : callableList list = true) (fuel : Nat) (hf : depthList list ≤ fuel) :
    ∃ ret list' st', New R fuel pooled source list = .ok (ret, list') st' := by
  obtain ⟨list', st', h⟩ := rangeLoop_returns (Gen.gen R fuel) list
    (fun x hx s => gen_returns R fuel x ((callableList_iff list).1 hc x hx)
      (le_trans (depth_le_depthList hx) hf) s)
    (Reset { rnd := source, buf := pooled, draws := 0, reads := 0 })
  exact ⟨st'.buf, list', st', by rw [New]; simp only [h, bind_ok]⟩

end Returns

/-- C2 (code bug).  Generation runs to completion on every argument list that
meets the construction preconditions as long as no `Repeat` has a positive
count; but on the well-formed arguments of the test,
`New(source, Number(10), Repeat{Option{Number(1)}, 5})`, the call never
returns, for every random source, every content of the pooled buffer and
every call depth. -/
theorem C2_New_with_Repeat_diverges {σ : Type} (R : Rand σ) (pooled : List Nat) (source : σ) :
    (∀ list : List Gen, callableList list = true →
      ∃ ret list' st', New R (depthList list) pooled source list = .ok (ret, list') st') ∧
    ∀ fuel : Nat,
      New R fuel pooled source [.Number 10, .Repeat (.Option (.Number 1)) 5] = .diverge := by
  refine ⟨fun list hc => New_returns R pooled source list hc _ (le_refl _), fun fuel => ?_⟩
  cases fuel with
  | zero => rfl
  | succ fuel =>
    obtain ⟨bs, st1, h, -⟩ := gen_Number_ok R 10 fuel
      (Reset { rnd := source, buf := pooled, draws := 0, reads := 0 })
    have hr := Repeat_diverges R (.Option (.Number 1)) 4 (fuel + 1) st1
    have h5 : ((4 : Nat) : Int) + 1 = 5 := by norm_num
    rw [h5] at hr
    simp only [New, rangeLoop, h, bind_ok, hr, bind_diverge, map_diverge]

/-! ## May -/

/-- C11.  `May.Gen` with `D > 0` takes one draw `d` in `[0, D)`, writes
nothing before the child runs, invokes the child once, from the state right
after the draw, when `d < N`, and returns without invoking it otherwise; when
`N >= D` the child is invoked on every call. -/
theorem C11_May_draw_decides {σ : Type} (R : Rand σ) (fuel : Nat) (G : Gen) (N D : Int)
    (hD : 0 < D) (st : State σ) :
    ∃ d st1, Intn R D st = .ok d st1 ∧ (d : Int) < D ∧ st1.buf = st.buf ∧
      st1.draws = st.draws + 1 ∧ st1.reads = st.reads ∧
      Gen.gen R (fuel + 1) (.May G N D) st =
        (if (d : Int) < N then (Gen.gen R fuel G st1).map fun G' => Gen.May G' N D
          else .ok (.May G N D) st1) ∧
      (D ≤ N → Gen.gen R (fuel + 1) (.May G N D) st =
        (Gen.gen R fuel G st1).map fun G' => Gen.May G' N D) := by
  obtain ⟨d, st1, h1, hd, hb, hdr, hr⟩ := Intn_pos R D.toNat (by omega) st
  have hDD : ((D.toNat : Nat) : Int) = D := by omega
  rw [hDD] at h1
  have hdD : (d : Int) < D := by omega
  have hg : Gen.gen R (fuel + 1) (.May G N D) st =
      (if (d : Int) < N then (Gen.gen R fuel G st1).map fun G' => Gen.May G' N D
        else .ok (.May G N D) st1) := by
    rw [gen_May, May.Gen, h1, bind_ok]
    split <;> rfl
  refine ⟨d, st1, h1, hdD, hb, hdr, hr, hg, fun hN => ?_⟩
  rw [hg, if_pos (by omega)]

/-- C11 at `May{Number(1), 1, 4}` with a source whose next answers are 6 and
3. -/
theorem C11_May_draw_decides_witness :
    (0 : Int) < 4 ∧
    ∃ d st1, Intn script 4 { rnd := [6, 3], buf := [], draws := 0, reads := 0 } = .ok d st1 ∧
      (d : Int) < 4 ∧ st1.buf = [] ∧ st1.draws = 0 + 1 ∧ st1.reads = 0 ∧
      Gen.gen script (1 + 1) (.May (.Number 1) 1 4)
          { rnd := [6, 3], buf := [], draws := 0, reads := 0 } =
        (if (d : Int) < 1 then (Gen.gen script 1 (.Number 1) st1).map fun G' => Gen.May G' 1 4
          else .ok (.May (.Number 1) 1 4) st1) ∧
      ((4 : Int) ≤ 1 → Gen.gen script (1 + 1) (.May (.Number 1) 1 4)
          { rnd := [6, 3], buf := [], draws := 0, reads := 0 } =
        (Gen.gen script 1 (.Number 1) st1).map fun G' => Gen.May G' 1 4) :=
  ⟨by decide, C11_May_draw_decides script 1 (.Number 1) 1 4 (by decide) _⟩

/-- With a positive denominator the child is invoked exactly when the answer,
reduced to `[0, D)`, is below `N`. -/
theorem mayIncludes_eq (N : Int) (D d : Nat) (hD : 0 < D) :
    mayIncludes N D d = decide (((d % D : Nat) : Int) < N) := by
  have hpos : ¬ ((D : Int) ≤ 0) := by omega
  have e : Gen.gen script 2 (.May (.Bytes [0]) N D)
      { rnd := [d], buf := [], draws := 0, reads := 0 } =
      (if ((d % D : Nat) : Int) < N then
        .ok (.May (.Bytes [0]) N D) { rnd := [], buf := [0], draws := 1, reads := 0 }
       else .ok (.May (.Bytes [0]) N D) { rnd := [], buf := [], draws := 1, reads := 0 }) := by
    rw [gen_May, May.Gen]
    simp only [Intn, hpos, if_false, Int.toNat_ofNat, script_intn_cons, bind_ok]
    split <;> rfl
  unfold mayIncludes
  rw [e]
  by_cases h : ((d % D : Nat) : Int) < N
  · rw [if_pos h, decide_eq_true h]
    rfl
  · rw [if_neg h, decide_eq_false h]
    rfl

/-- Of the numbers below `D`, exactly `N` are below `N` when `N <= D`. -/
theorem length_filter_lt_range (N D : Nat) (h : N ≤ D) :
    ((List.range D).filter fun d => decide (d < N)).length = N := by
  induction D with
  | zero =>
    have : N = 0 := by omega
    subst this
    rfl
  | succ D ih =>
    rw [List.range_succ, List.filter_append, List.length_append]
    by_cases hN : N ≤ D
    · rw [ih hN]
      have : ¬ D < N := by omega
      simp [this]
    · have hND : N = D + 1 := by omega
      subst hND
      have e : ((List.range D).filter fun d => decide (d < D + 1)) = List.range D := by
        rw [List.filter_eq_self]
        intro a ha
        have := List.mem_range.1 ha
        simp; omega
      rw [e]
      simp

/-- C12.  For `D > 0` and `0 <= N <= D`, exactly `N` of the `D` possible
answers `0, ..., D - 1` of the draw make `May{G, N, D}.Gen` invoke its child:
under a uniform draw the child is included with probability `N / D`. -/
theorem C12_May_includes_N_of_D (N D : Nat) (hD : 0 < D) (hN : N ≤ D) :
    ((List.range D).filter fun d => mayIncludes N D d).length = N ∧
    (List.range D).length = D ∧
    ∀ d, d < D → mayIncludes N D d = decide (d < N) := by
  have hmem : ∀ d, d < D → mayIncludes N D d = decide (d < N) := by
    intro d hd
    rw [mayIncludes_eq N D d hD, Nat.mod_eq_of_lt hd]
    simp
  refine ⟨?_, List.length_range D, hmem⟩
  have e : ((List.range D).filter fun d => mayIncludes N D d) =
      (List.range D).filter fun d => decide (d < N) :=
    List.filter_congr fun d hd => hmem d (List.mem_range.1 hd)
  rw [e]
  exact length_filter_lt_range N D hN

/-- C12 at `May{G, 3, 4}`: three of the four answers include the child. -/
theorem C12_May_includes_N_of_D_witness :
    0 < 4 ∧ 3 ≤ 4 ∧
    (((List.range 4).filter fun d => mayIncludes (3 : Nat) (4 : Nat) d).length = 3 ∧
    (List.range 4).length = 4 ∧
    ∀ d, d < 4 → mayIncludes (3 : Nat) (4 : Nat) d = decide (d < 3)) :=
  ⟨by decide, by decide, C12_May_includes_N_of_D 3 4 (by decide) (by decide)⟩

/-! ## The alphabet family -/

section Alphabets

variable {σ : Type}

theorem Family.table_ne_nil (k : Family) : k.table ≠ [] := by
  cases k <;> decide

/-- The `Gen` method of every family member is the loop over `ByteTable.Gen`
on its table. -/
theorem gen_Family (R : Rand σ) (fuel : Nat) (k : Family) (n : Int) (st : State σ) :
    Gen.gen R (fuel + 1) (k.gen n) st =
      (forN (fun _ s => ByteTable.Gen R k.table s) n.toNat () st).map fun _ => k.gen n := by
  cases k <;> rfl

/-- Every byte of the table of a family member lies in its declared symbol
set. -/
theorem Family.table_symbols (k : Family) : ∀ b ∈ k.table, k.symbols b = true := by
  cases k <;> decide

/-- A family member of count `n` returns after `max n 0` rounds: that many
bytes of its symbol set appended, that many draws taken. -/
theorem gen_Family_ok (R : Rand σ) (fuel : Nat) (k : Family) (n : Int) (st : State σ) :
    ∃ bs st', Gen.gen R (fuel + 1) (k.gen n) st = .ok (k.gen n) st' ∧
      st'.buf = st.buf ++ bs ∧ bs.length = n.toNat ∧ (∀ b ∈ bs, k.symbols b = true) ∧
      st'.draws = st.draws + n.toNat ∧ st'.reads = st.reads := by
  obtain ⟨bs, st', h, hb, hl, hm, hd, hr⟩ := tableLoop_ok R k.table k.table_ne_nil n.toNat st
  exact ⟨bs, st', by rw [gen_Family, h, map_ok], hb, hl,
    fun b hbm => k.table_symbols b (hm b hbm), hd, hr⟩

end Alphabets

/-- C13.  Each generator of the alphabet family (`LowerAlphabet`,
`UpperAlphabet`, `Alphabet`, `AlphaNumeric`, `Number`) with count `n` returns
after writing exactly `max n 0` bytes and taking exactly `max n 0` draws, none
of them a byte read; with `n <= 0` it leaves sink and source as they were. -/
theorem C13_alphabet_count {σ : Type} (R : Rand σ) (fuel : Nat) (k : Family) (n : Int)
    (st : State σ) :
    ∃ bs st', Gen.gen R (fuel + 1) (k.gen n) st = .ok (k.gen n) st' ∧
      st'.buf = st.buf ++ bs ∧ (bs.length : Int) = max n 0 ∧
      (st'.draws : Int) = st.draws + max n 0 ∧ st'.reads = st.reads ∧
      (n ≤ 0 → st' = st) := by
  obtain ⟨bs, st', h, hb, hl, -, hd, hr⟩ := gen_Family_ok R fuel k n st
  refine ⟨bs, st', h, hb, by omega, by omega, hr, fun hn => ?_⟩
  have h0 : n.toNat = 0 := by omega
  rw [gen_Family, h0] at h
  simp only [forN, map_ok, Outcome.ok.injEq] at h
  exact h.2.symm

/-- C14.  Every byte that an alphabet generator writes lies in its declared
symbol set (`'a'..'z'`, `'A'..'Z'`, letters, letters and digits, `'0'..'9'`);
`ByteTable(t)` with non-empty `t` writes one byte `t[i]` of `t`; `RuneTable(t)`
with non-empty `t` hands one rune `t[i]` of `t` to `WriteRune`; and
`New(source, Number(10))` returns ten ASCII digits. -/
theorem C14_symbols_from_declared_set {σ : Type} (R : Rand σ) (fuel : Nat) (st : State σ) :
    (∀ (k : Family) (n : Int), ∃ bs st', Gen.gen R (fuel + 1) (k.gen n) st = .ok (k.gen n) st' ∧
      st'.buf = st.buf ++ bs ∧ ∀ b ∈ bs, k.symbols b = true) ∧
    (∀ t : List Nat, t ≠ [] → ∃ i b st1, Intn R (t.length : Int) st = .ok i st1 ∧
      t[i]? = some b ∧ b ∈ t ∧
      Gen.gen R (fuel + 1) (.ByteTable t) st = .ok (.ByteTable t) (WriteByte b st1) ∧
      (WriteByte b st1).buf = st.buf ++ [b]) ∧
    (∀ t : List Int, t ≠ [] → ∃ i ru st1, Intn R (t.length : Int) st = .ok i st1 ∧
      t[i]? = some ru ∧ ru ∈ t ∧
      Gen.gen R (fuel + 1) (.RuneTable t) st = .ok (.RuneTable t) (WriteRune ru st1) ∧
      (WriteRune ru st1).buf = st.buf ++ encodeRune ru) ∧
    ∀ (pooled : List Nat) (source : σ), ∃ ret st',
      New R (fuel + 1) pooled source [.Number 10] = .ok (ret, [.Number 10]) st' ∧
      ret.length = 10 ∧ ∀ b ∈ ret, isDigit b = true := by
  refine ⟨fun k n => ?_, fun t ht => ?_, fun t ht => ?_, fun pooled source => ?_⟩
  · obtain ⟨bs, st', h, hb, -, hm, -⟩ := gen_Family_ok R fuel k n st
    exact ⟨bs, st', h, hb, hm⟩
  · obtain ⟨i, st1, h1, hi, hb, -⟩ := Intn_pos R t.length (List.length_pos.2 ht) st
    refine ⟨i, t[i], st1, h1, List.getElem?_eq_getElem hi, List.getElem_mem _, ?_, ?_⟩
    · simp [gen_ByteTable, ByteTable.Gen, ByteTable.Pick, h1, bind_ok, map_ok,
        List.getElem?_eq_getElem hi]
    · simp [WriteByte, hb]
  · obtain ⟨i, st1, h1, hi, hb, -⟩ := Intn_pos R t.length (List.length_pos.2 ht) st
    refine ⟨i, t[i], st1, h1, List.getElem?_eq_getElem hi, List.getElem_mem _, ?_, ?_⟩
    · simp [Gen.gen, RuneTable.Gen, RuneTable.Pick, h1, bind_ok, map_ok,
        List.getElem?_eq_getElem hi]
    · simp [WriteRune, hb]
  · obtain ⟨bs, st', h, hb, hl, hm, -⟩ := gen_Family_ok R fuel .digits 10
      (Reset { rnd := source, buf := pooled, draws := 0, reads := 0 })
    have hb' : st'.buf = bs := by simpa [Reset] using hb
    refine ⟨bs, st', ?_, by simpa using hl, hm⟩
    have h' : Gen.gen R (fuel + 1) (.Number 10)
        (Reset { rnd := source, buf := pooled, draws := 0, reads := 0 }) =
        .ok (.Number 10) st' := h
    simp only [New, rangeLoop, h', bind_ok, map_ok, hb']

/-! ## Literals, Chain, and the edge cases -/

/-- C15.  `String(p).Gen` and `Bytes(p).Gen` return after appending exactly
the payload `p` to the sink; the random source, the draw counter and the read
counter stay as they were; an empty payload leaves the whole state as it
was. -/
theorem C15_literals_append_payload {σ : Type} (R : Rand σ) (fuel : Nat) (p : List Nat)
    (st : State σ) :
    Gen.gen R (fuel + 1) (.String p) st =
      .ok (.String p)
        { rnd := st.rnd, buf := st.buf ++ p, draws := st.draws, reads := st.reads } ∧
    Gen.gen R (fuel + 1) (.Bytes p) st =
      .ok (.Bytes p)
        { rnd := st.rnd, buf := st.buf ++ p, draws := st.draws, reads := st.reads } ∧
    Gen.gen R (fuel + 1) (.String []) st = .ok (.String []) st ∧
    Gen.gen R (fuel + 1) (.Bytes []) st = .ok (.Bytes []) st := by
  refine ⟨rfl, rfl, ?_, ?_⟩
  · rw [gen_String, WriteString, List.append_nil]
  · rw [gen_Bytes, Write, List.append_nil]

section ChainFacts

variable {σ : Type}

/-- The left fold of `invokeInOrder`, started after some calls have been made,
is the range loop over the rest. -/
theorem foldl_invoke (call : Gen → State σ → Outcome σ Gen) (v done : List Gen)
    (st : State σ) :
    v.foldl (fun acc x => acc.bind fun d st' => (call x st').map fun x' => d ++ [x'])
        (.ok done st) =
      (rangeLoop call v st).map (done ++ ·) := by
  induction v generalizing done st with
  | nil => simp [rangeLoop, map_ok]
  | cons x xs ih =>
    rw [List.foldl_cons, bind_ok, rangeLoop_cons]
    cases call x st with
    | ok x' st1 =>
      rw [map_ok, ih, bind_ok]
      cases rangeLoop call xs st1 <;> simp [Outcome.map]
    | panic st1 =>
      rw [map_panic, bind_panic, map_panic]
      clear ih
      induction xs with
      | nil => rfl
      | cons y ys ihy => rw [List.foldl_cons, bind_panic, ihy]
    | diverge =>
      rw [map_diverge, bind_diverge, map_diverge]
      clear ih
      induction xs with
      | nil => rfl
      | cons y ys ihy => rw [List.foldl_cons, bind_diverge, ihy]

/-- The range loop of `Chain.Gen` invokes each element once, in listed
order. -/
theorem rangeLoop_eq_invokeInOrder (call : Gen → State σ → Outcome σ Gen) (v : List Gen)
    (st : State σ) : rangeLoop call v st = invokeInOrder call v st := by
  rw [invokeInOrder, foldl_invoke]
  cases rangeLoop call v st <;> simp [Outcome.map]

end ChainFacts

/-- C16.  `Chain(v).Gen` has the effect of invoking each element of `v` once,
in listed order, each on the sink and source that the one before left
(`invokeInOrder`); for `v = x :: xs` that is the call of `x` followed by the
chain over `xs`; the empty `Chain` returns with sink and source as they
were. -/
theorem C16_Chain_invokes_in_order {σ : Type} (R : Rand σ) (fuel : Nat) (v : List Gen)
    (st : State σ) :
    Gen.gen R (fuel + 1) (.Chain v) st = (invokeInOrder (Gen.gen R fuel) v st).map Gen.Chain ∧
    (∀ (x : Gen) (xs : List Gen), Chain.Gen (Gen.gen R fuel) (x :: xs) st =
      (Gen.gen R fuel x st).bind fun x' st' =>
        (Chain.Gen (Gen.gen R fuel) xs st').map (x' :: ·)) ∧
    Gen.gen R (fuel + 1) (.Chain []) st = .ok (.Chain []) st := by
  refine ⟨?_, fun x xs => rfl, rfl⟩
  rw [gen_Chain, Chain.Gen, rangeLoop_eq_invokeInOrder]

/-- C17.  `Repeat{G, N}.Gen` with `N <= 0` returns at once: the child is not
invoked, nothing is written and no draw or byte is taken. -/
theorem C17_Repeat_nonpositive_returns {σ : Type} (R : Rand σ) (fuel : Nat) (G : Gen) (N : Int)
    (hN : N ≤ 0) (st : State σ) :
    Gen.gen R (fuel + 1) (.Repeat G N) st = .ok (.Repeat G N) st := by
  have h0 : N.toNat = 0 := by omega
  rw [gen_Repeat, Repeat.Gen, h0]
  rfl

/-- C17 at `Repeat{Number(3), -2}`. -/
theorem C17_Repeat_nonpositive_returns_witness :
    (-2 : Int) ≤ 0 ∧
    Gen.gen script (0 + 1) (.Repeat (.Number 3) (-2))
        { rnd := [5, 6, 7], buf := [1], draws := 0, reads := 0 } =
      .ok (.Repeat (.Number 3) (-2)) { rnd := [5, 6, 7], buf := [1], draws := 0, reads := 0 } :=
  ⟨by decide, C17_Repeat_nonpositive_returns script 0 (.Number 3) (-2) (by decide) _⟩

/-- C19.  Misuse stops the call at the range draw: `Pick` over an empty list,
`ByteTable` and `RuneTable` over an empty table and `May` with `D <= 0` panic
in `Intn`, in the very state in which they were called, so nothing has been
written, no draw taken and no child invoked; `New` then returns no string. -/
theorem C19_misuse_panics_at_draw {σ : Type} (R : Rand σ) (fuel : Nat) (G : Gen) (N D : Int)
    (hD : D ≤ 0) (st : State σ) :
    Intn R D st = .panic st ∧
    Gen.gen R (fuel + 1) (.Pick []) st = .panic st ∧
    Gen.gen R (fuel + 1) (.ByteTable []) st = .panic st ∧
    Gen.gen R (fuel + 1) (.RuneTable []) st = .panic st ∧
    Gen.gen R (fuel + 1) (.May G N D) st = .panic st ∧
    ∀ (pooled : List Nat) (source : σ),
      New R (fuel + 1) pooled source [.May G N D] =
        .panic { rnd := source, buf := [], draws := 0, reads := 0 } := by
  have hI : ∀ s : State σ, Intn R D s = .panic s := fun s => by simp [Intn, hD]
  have hM : ∀ s : State σ, Gen.gen R (fuel + 1) (.May G N D) s = .panic s := fun s => by
    rw [gen_May, May.Gen, hI]; rfl
  refine ⟨hI st, rfl, rfl, rfl, hM st, fun pooled source => ?_⟩
  simp only [New, rangeLoop, hM, bind_panic, Reset]

/-- C19 at `May{Number(1), 1, 0}`. -/
theorem C19_misuse_panics_at_draw_witness :
    (0 : Int) ≤ 0 ∧
    (Intn script 0 { rnd := [5], buf := [1], draws := 0, reads := 0 } =
      .panic { rnd := [5], buf := [1], draws := 0, reads := 0 } ∧
    Gen.gen script (0 + 1) (.Pick []) { rnd := [5], buf := [1], draws := 0, reads := 0 } =
      .panic { rnd := [5], buf := [1], draws := 0, reads := 0 } ∧
    Gen.gen script (0 + 1) (.ByteTable []) { rnd := [5], buf := [1], draws := 0, reads := 0 } =
      .panic { rnd := [5], buf := [1], draws := 0, reads := 0 } ∧
    Gen.gen script (0 + 1) (.RuneTable []) { rnd := [5], buf := [1], draws := 0, reads := 0 } =
      .panic { rnd := [5], buf := [1], draws := 0, reads := 0 } ∧
    Gen.gen script (0 + 1) (.May (.Number 1) 1 0)
        { rnd := [5], buf := [1], draws := 0, reads := 0 } =
      .panic { rnd := [5], buf := [1], draws := 0, reads := 0 } ∧
    ∀ (pooled : List Nat) (source : List Nat),
      New script (0 + 1) pooled source [.May (.Number 1) 1 0] =
        .panic { rnd := source, buf := [], draws := 0, reads := 0 }) :=
  ⟨by decide, C19_misuse_panics_at_draw script 0 (.Number 1) 1 0 (by decide) _⟩

/-- C20.  On a `Shuffle` list of length 0 or 1 the swap loop takes no draw and
leaves list and state as they were, so `Shuffle.Gen` is `Chain.Gen` over the
same list: the empty `Shuffle` returns with nothing written, nothing drawn,
and a one-element `Shuffle` is the call of its element. -/
theorem C20_short_Shuffle_is_Chain {σ : Type} (R : Rand σ) (fuel : Nat) (v : List Gen)
    (hv : v.length ≤ 1) (st : State σ) :
    shuffleLoop R (v.length - 1) v st = .ok v st ∧
    Shuffle.Gen R (Gen.gen R fuel) v st = Chain.Gen (Gen.gen R fuel) v st ∧
    Gen.gen R (fuel + 1) (.Shuffle v) st =
      (Chain.Gen (Gen.gen R fuel) v st).map Gen.Shuffle ∧
    Gen.gen R (fuel + 1) (.Chain v) st = (Chain.Gen (Gen.gen R fuel) v st).map Gen.Chain ∧
    Gen.gen R (fuel + 1) (.Shuffle []) st = .ok (.Shuffle []) st ∧
    ∀ x : Gen, v = [x] →
      Gen.gen R (fuel + 1) (.Shuffle v) st = (Gen.gen R fuel x st).map fun x' => .Shuffle [x'] := by
  have h0 : v.length - 1 = 0 := by omega
  have hl : shuffleLoop R (v.length - 1) v st = .ok v st := by rw [h0]; rfl
  have hs : Shuffle.Gen R (Gen.gen R fuel) v st = Chain.Gen (Gen.gen R fuel) v st := by
    rw [Shuffle.Gen, hl, bind_ok]
  refine ⟨hl, hs, by rw [gen_Shuffle, hs], rfl, rfl, fun x hx => ?_⟩
  subst hx
  rw [gen_Shuffle, hs, Chain.Gen, rangeLoop_cons]
  cases Gen.gen R fuel x st <;> rfl

/-- C20 at the one-element list `Shuffle{String("111")}`. -/
theorem C20_short_Shuffle_is_Chain_witness :
    [Gen.String (str "111")].length ≤ 1 ∧
    (shuffleLoop script ([Gen.String (str "111")].length - 1) [Gen.String (str "111")]
        { rnd := [5], buf := [], draws := 0, reads := 0 } =
      .ok [Gen.String (str "111")] { rnd := [5], buf := [], draws := 0, reads := 0 } ∧
    Shuffle.Gen script (Gen.gen script 1) [Gen.String (str "111")]
        { rnd := [5], buf := [], draws := 0, reads := 0 } =
      Chain.Gen (Gen.gen script 1) [Gen.String (str "111")]
        { rnd := [5], buf := [], draws := 0, reads := 0 } ∧
    Gen.gen script (1 + 1) (.Shuffle [Gen.String (str "111")])
        { rnd := [5], buf := [], draws := 0, reads := 0 } =
      (Chain.Gen (Gen.gen script 1) [Gen.String (str "111")]
        { rnd := [5], buf := [], draws := 0, reads := 0 }).map Gen.Shuffle ∧
    Gen.gen script (1 + 1) (.Chain [Gen.String (str "111")])
        { rnd := [5], buf := [], draws := 0, reads := 0 } =
      (Chain.Gen (Gen.gen script 1) [Gen.String (str "111")]
        { rnd := [5], buf := [], draws := 0, reads := 0 }).map Gen.Chain ∧
    Gen.gen script (1 + 1) (.Shuffle []) { rnd := [5], buf := [], draws := 0, reads := 0 } =
      .ok (.Shuffle []) { rnd := [5], buf := [], draws := 0, reads := 0 } ∧
    ∀ x : Gen, [Gen.String (str "111")] = [x] →
      Gen.gen script (1 + 1) (.Shuffle [Gen.String (str "111")])
          { rnd := [5], buf := [], draws := 0, reads := 0 } =
        (Gen.gen script 1 x { rnd := [5], buf := [], draws := 0, reads := 0 }).map
          fun x' => .Shuffle [x']) :=
  ⟨by decide, C20_short_Shuffle_is_Chain script 1 [Gen.String (str "111")] (by decide) _⟩

/-! ## Optional symbols -/

section Optional

variable {σ : Type}

/-- `Option{g}` around a family member of count 1 returns, appends at most one
byte, a byte of the symbol set, and is left unchanged. -/
theorem gen_Option_Family (R : Rand σ) (fuel : Nat) (k : Family) (st : State σ) :
    ∃ bs st', Gen.gen R (fuel + 2) (.Option (k.gen 1)) st = .ok (.Option (k.gen 1)) st' ∧
      st'.buf = st.buf ++ bs ∧ bs.length ≤ 1 ∧ ∀ b ∈ bs, k.symbols b = true := by
  rw [gen_Option, Option.Gen]
  split
  · obtain ⟨bs, st', h, hb, hl, hm, -⟩ := gen_Family_ok R fuel k 1 (getByte R st).2
    refine ⟨bs, st', by rw [h, map_ok], hb, ?_, hm⟩
    rw [hl]; decide
  · exact ⟨[], (getByte R st).2, rfl, by simp [getByte], by simp, by simp⟩

/-- A run of `m` such options returns, appends at most `m` bytes of the symbol
set, and is left unchanged. -/
theorem rangeLoop_Option_Family (R : Rand σ) (fuel : Nat) (k : Family) (m : Nat)
    (st : State σ) :
    ∃ bs st', rangeLoop (Gen.gen R (fuel + 2)) (List.replicate m (.Option (k.gen 1))) st =
        .ok (List.replicate m (.Option (k.gen 1))) st' ∧
      st'.buf = st.buf ++ bs ∧ bs.length ≤ m ∧ ∀ b ∈ bs, k.symbols b = true := by
  induction m generalizing st with
  | zero => exact ⟨[], st, rfl, by simp, by simp, by simp⟩
  | succ m ih =>
    obtain ⟨bs1, st1, h1, hb1, hl1, hm1⟩ := gen_Option_Family R fuel k st
    obtain ⟨bs2, st2, h2, hb2, hl2, hm2⟩ := ih st1
    refine ⟨bs1 ++ bs2, st2, ?_, by rw [hb2, hb1, List.append_assoc], ?_, ?_⟩
    · rw [List.replicate_succ, rangeLoop_cons, h1, bind_ok, h2, map_ok]
    · rw [List.length_append]; omega
    · intro b hb
      rcases List.mem_append.1 hb with h | h
      · exact hm1 b h
      · exact hm2 b h

end Optional

/-- C18.  For every family member, every `n >= 0`, every `m >= 0` and every
random source, `New(source, X(n), Option{X(1)}, ..., Option{X(1)})` with `m`
options returns a string of symbols of the family's set whose length is at
least `n` and at most `n + m`; with `X = Number`, `n = 10`, `m = 5` that is 10
to 15 digits, with `X = LowerAlphabet`, `n = 5`, `m = 2` it is 5 to 7 lowercase
letters. -/
theorem C18_optional_suffix_bounds {σ : Type} (R : Rand σ) (fuel : Nat) (pooled : List Nat)
    (source : σ) :
    (∀ (k : Family) (n m : Nat), ∃ ret st',
      New R (fuel + 2) pooled source
          (k.gen (n : Int) :: List.replicate m (.Option (k.gen 1))) =
        .ok (ret, k.gen (n : Int) :: List.replicate m (.Option (k.gen 1))) st' ∧
      n ≤ ret.length ∧ ret.length ≤ n + m ∧ ∀ b ∈ ret, k.symbols b = true) ∧
    (∃ ret st',
      New R (fuel + 2) pooled source
          [.Number 10, .Option (.Number 1), .Option (.Number 1), .Option (.Number 1),
            .Option (.Number 1), .Option (.Number 1)] =
        .ok (ret, [.Number 10, .Option (.Number 1), .Option (.Number 1), .Option (.Number 1),
            .Option (.Number 1), .Option (.Number 1)]) st' ∧
      10 ≤ ret.length ∧ ret.length ≤ 15 ∧ ∀ b ∈ ret, isDigit b = true) ∧
    ∃ ret st',
      New R (fuel + 2) pooled source
          [.LowerAlphabet 5, .Option (.LowerAlphabet 1), .Option (.LowerAlphabet 1)] =
        .ok (ret, [.LowerAlphabet 5, .Option (.LowerAlphabet 1), .Option (.LowerAlphabet 1)])
          st' ∧
      5 ≤ ret.length ∧ ret.length ≤ 7 ∧ ∀ b ∈ ret, isLower b = true := by
  have hgen : ∀ (k : Family) (n m : Nat), ∃ ret st',
      New R (fuel + 2) pooled source
          (k.gen (n : Int) :: List.replicate m (.Option (k.gen 1))) =
        .ok (ret, k.gen (n : Int) :: List.replicate m (.Option (k.gen 1))) st' ∧
      n ≤ ret.length ∧ ret.length ≤ n + m ∧ ∀ b ∈ ret, k.symbols b = true := by
    intro k n m
    obtain ⟨bs1, st1, h1, hb1, hl1, hm1, -⟩ := gen_Family_ok R (fuel + 1) k (n : Int)
      (Reset { rnd := source, buf := pooled, draws := 0, reads := 0 })
    obtain ⟨bs2, st2, h2, hb2, hl2, hm2⟩ := rangeLoop_Option_Family R fuel k m st1
    have hbuf : st2.buf = bs1 ++ bs2 := by
      rw [hb2, hb1]; simp [Reset]
    have hlen : bs1.length = n := by simpa using hl1
    refine ⟨bs1 ++ bs2, st2, ?_, ?_, ?_, ?_⟩
    · rw [New]
      simp only [rangeLoop_cons, h1, bind_ok, h2, map_ok, hbuf]
    · rw [List.length_append]; omega
    · rw [List.length_append]; omega
    · intro b hb
      rcases List.mem_append.1 hb with h | h
      · exact hm1 b h
      · exact hm2 b h
  exact ⟨hgen, hgen .digits 10 5, hgen .lower 5 2⟩

end GoGen
